import Mathlib

/-!
Verification of the TempOIScreenerBot aggregation and notification core.

Shallow embedding conventions:
* JavaScript finite numbers are rationals (`ℚ`); exact rational arithmetic
  stands in for IEEE doubles.
* A JS value that can be `NaN`, `null` or `undefined` is `Option ℚ`
  (`none` = unavailable); `Number.isFinite x` becomes `Option.isSome`.
* Timestamps are rationals (milliseconds); `Date.now()` is passed explicitly
  as a `now` parameter.
* `Number(x.toFixed(d))` and `Math.round` are modelled as round-half-up on
  the exact rational value.
-/

namespace TempOI

/-- Division on `ℚ` via `Rat.divInt` (the library `Rat.inv` is marked
irreducible, which would block kernel evaluation of the embedded code;
`ratDiv_eq` below shows this is ordinary division). -/
def ratDiv (a b : ℚ) : ℚ := a * Rat.divInt (b.den : ℤ) b.num

/-- Math.round: round half toward positive infinity. -/
def jsRound (x : ℚ) : ℤ := Int.floor (x + mkRat 1 2)

/-- Number(x.toFixed(6)): rounding to six decimal places. -/
def round6 (x : ℚ) : ℚ := ratDiv (jsRound (x * 1000000) : ℚ) 1000000

/-- Number(x.toFixed(3)): rounding to three decimal places. -/
def round3 (x : ℚ) : ℚ := ratDiv (jsRound (x * 1000) : ℚ) 1000

/-- Association-list lookup, the model of JavaScript `Map.get`. -/
def lookupA {α β : Type} [DecidableEq α] : List (α × β) → α → Option β
  | [], _ => none
  | (k, v) :: rest, key => if k = key then some v else lookupA rest key

/-- Association-list update, the model of JavaScript `Map.set`: replaces the
value in place if the key exists, appends otherwise. -/
def setA {α β : Type} [DecidableEq α] : List (α × β) → α → β → List (α × β)
  | [], key, v => [(key, v)]
  | (k, w) :: rest, key, v =>
    if k = key then (k, v) :: rest else (k, w) :: setA rest key v

/-- Association-list removal of the (unique) entry with the given key, the
model of JavaScript `Map.delete`. -/
def eraseA {α β : Type} [DecidableEq α] : List (α × β) → α → List (α × β)
  | [], _ => []
  | (k, w) :: rest, key => if k = key then rest else (k, w) :: eraseA rest key

/-- Removes the first occurrence of an element from a list (like `List.erase`
but through `DecidableEq` directly). -/
def removeOne {α : Type} [DecidableEq α] : List α → α → List α
  | [], _ => []
  | x :: xs, a => if x = a then xs else x :: removeOne xs a

/-- Bucket (per symbol, per resolution, per aligned start timestamp), from
`aggregator.types` (`src/unnamed/part_014`).  OI fields may be `NaN`
(= `none`), price fields may be `null` (= `none`). -/
structure Bucket where
  oiOpen : Option ℚ
  oiClose : Option ℚ
  oiHigh : Option ℚ
  oiLow : Option ℚ
  volumeBuy : ℚ
  volumeSell : ℚ
  totalVolume : ℚ
  volumeBuyQuote : ℚ
  volumeSellQuote : ℚ
  totalQuoteVolume : ℚ
  priceOpen : Option ℚ
  priceClose : Option ℚ
  count : ℕ
  firstTs : ℚ
  lastTs : ℚ
deriving DecidableEq, Repr

/-- One step of `upperBound`'s binary-search loop ("lower_bound" in the
source comment), with explicit fuel so the definition is structural and
computable by kernel reduction.  `keys[mid]` out of range reads the default,
which never happens for in-range calls. -/
def upperBoundGo (keys : List ℚ) (target : ℚ) : ℕ → ℕ → ℕ → ℕ
  | 0, left, _ => left
  | fuel + 1, left, right =>
    if left < right then
      let mid := (left + right) / 2
      if keys.getD mid 0 ≤ target then upperBoundGo keys target fuel (mid + 1) right
      else upperBoundGo keys target fuel left mid
    else left

/-- `SortedBucketMap.upperBound`: index at which to splice a new key into the
sorted key array. -/
def upperBound (keys : List ℚ) (target : ℚ) : ℕ :=
  upperBoundGo keys target (keys.length + 1) 0 keys.length

/-- One step of `SortedBucketMap.binarySearch`'s exact-match loop; the source
returns `-1` on failure, modelled as an `ℤ` result.  Fuel as above. -/
def binSearchGo (keys : List ℚ) (target : ℚ) : ℕ → ℕ → ℤ → ℤ
  | 0, _, _ => -1
  | fuel + 1, left, right =>
    if (left : ℤ) ≤ right then
      let mid := (left + right.toNat) / 2
      let val := keys.getD mid 0
      if val = target then (mid : ℤ)
      else if val < target then binSearchGo keys target fuel (mid + 1) right
      else binSearchGo keys target fuel left ((mid : ℤ) - 1)
    else -1

/-- `SortedBucketMap.binarySearch`: exact-match binary search. -/
def binSearch (keys : List ℚ) (target : ℚ) : ℤ :=
  binSearchGo keys target (keys.length + 1) 0 ((keys.length : ℤ) - 1)

/-- JavaScript `array.splice(idx, 0, a)`: insert at position `idx`. -/
def spliceIn (l : List ℚ) (idx : ℕ) (a : ℚ) : List ℚ :=
  l.take idx ++ a :: l.drop idx

/-- `SortedBucketMap` (`src/unnamed/part_014`): a hash map of buckets keyed
by bucket-start timestamp, beside an incrementally maintained sorted key
array.  The hash map is modelled as an association list in insertion order. -/
structure SortedBucketMap where
  pairs : List (ℚ × Bucket)
  sortedKeys : List ℚ
deriving DecidableEq, Repr

namespace SortedBucketMap

def empty : SortedBucketMap := ⟨[], []⟩

/-- `size` getter. -/
def size (m : SortedBucketMap) : ℕ := m.pairs.length

/-- `get(key)`. -/
def get (m : SortedBucketMap) (key : ℚ) : Option Bucket := lookupA m.pairs key

/-- `has(key)`. -/
def hasKey (m : SortedBucketMap) (key : ℚ) : Bool := (lookupA m.pairs key).isSome

/-- `getSortedKeys()` (returns the live sorted array). -/
def getSortedKeys (m : SortedBucketMap) : List ℚ := m.sortedKeys

/-- `set(key, value)`: write the map; splice the key into the sorted array
only if it was absent. -/
def set (m : SortedBucketMap) (key : ℚ) (v : Bucket) : SortedBucketMap :=
  let existed := m.hasKey key
  let pairs' := setA m.pairs key v
  if existed then ⟨pairs', m.sortedKeys⟩
  else ⟨pairs', spliceIn m.sortedKeys (upperBound m.sortedKeys key) key⟩

/-- `delete(key)`: remove from the map; if it existed, binary-search the
sorted array and splice the found index out (guarded, as in the source, by
an exact re-check of the key at that index). -/
def delete (m : SortedBucketMap) (key : ℚ) : SortedBucketMap :=
  if m.hasKey key then
    let pairs' := eraseA m.pairs key
    let idx := binSearch m.sortedKeys key
    if idx ≠ -1 ∧ m.sortedKeys.getD idx.toNat 0 = key then
      ⟨pairs', m.sortedKeys.eraseIdx idx.toNat⟩
    else ⟨pairs', m.sortedKeys⟩
  else m

/-- `deleteOldest(count)`: shift the smallest keys off the sorted array and
delete each from the map, stopping early when the array is empty. -/
def deleteOldest (m : SortedBucketMap) : ℕ → SortedBucketMap
  | 0 => m
  | n + 1 =>
    match m.sortedKeys with
    | [] => m
    | k :: rest => deleteOldest ⟨eraseA m.pairs k, rest⟩ n

/-- `clear()`. -/
def clear (_ : SortedBucketMap) : SortedBucketMap := ⟨[], []⟩

/-- The implicit representation invariant of `SortedBucketMap`: the sorted
key array is strictly ascending and is a permutation of (i.e. carries
exactly) the keys of the hash map. -/
def Inv (m : SortedBucketMap) : Prop :=
  m.sortedKeys.Pairwise (· < ·) ∧ m.sortedKeys.Perm (m.pairs.map Prod.fst)

end SortedBucketMap




/-! ### BucketRepository (`src/unnamed/part_015`, second class) -/

/-- `MarketUpdatePayload` fields consumed by `updateBucket`; `none` stands
for an absent or non-finite field. -/
structure Payload where
  timestamp : ℚ
  price : Option ℚ
  openInterest : Option ℚ
  volumeBuy : Option ℚ
  volumeSell : Option ℚ
  volumeBuyQuote : Option ℚ
  volumeSellQuote : Option ℚ
deriving DecidableEq, Repr

/-- Default `MAX_MINUTE_BUCKETS` (70). -/
def MAX_MINUTE_BUCKETS : ℕ := 70

/-- Default `MAX_15S_BUCKETS` (300). -/
def MAX_15S_BUCKETS : ℕ := 300

/-- Lazy bucket creation in `updateBucket`: opening OI/price take the
update's value if present, else the fallback, else the unset sentinel. -/
def mkBucket (p : Payload) (lastPriceFallback lastOIFallback : Option ℚ) : Bucket :=
  let initialOI := match p.openInterest with
    | some v => some v
    | none => lastOIFallback
  let initialPrice := match p.price with
    | some v => some v
    | none => lastPriceFallback
  { oiOpen := initialOI, oiClose := initialOI, oiHigh := initialOI, oiLow := initialOI,
    volumeBuy := 0, volumeSell := 0, totalVolume := 0,
    volumeBuyQuote := 0, volumeSellQuote := 0, totalQuoteVolume := 0,
    priceOpen := initialPrice, priceClose := initialPrice,
    count := 0, firstTs := p.timestamp, lastTs := p.timestamp }

/-- The mutation one raw point performs on its bucket (the body of
`BucketRepository.updateBucket` after creation): out-of-order opening
rewind, closing update, OI high/low, additive volumes with rederived
totals, price open/close repair, count increment.  The second component
records whether the out-of-order counter was incremented. -/
def applyPoint (b0 : Bucket) (p : Payload) : Bucket × Bool :=
  let ts := p.timestamp
  let oi := p.openInterest
  let price := p.price
  let countedOOO := decide (ts < b0.firstTs) && decide (0 < b0.count)
  let b1 :=
    if ts < b0.firstTs then
      let bA := match oi with
        | some v => { b0 with oiOpen := some v, firstTs := ts }
        | none => b0
      match price with
        | some v => { bA with priceOpen := some v, firstTs := ts }
        | none => bA
    else b0
  let b2 :=
    if b1.lastTs ≤ ts then
      { b1 with
        oiClose := match oi with | some v => some v | none => b1.oiClose,
        priceClose := match price with | some v => some v | none => b1.priceClose,
        lastTs := ts }
    else b1
  let b3 := match oi with
    | none => b2
    | some v =>
      { b2 with
        oiHigh := match b2.oiHigh with
          | none => some v
          | some hh => if hh < v then some v else some hh,
        oiLow := match b2.oiLow with
          | none => some v
          | some ll => if v < ll then some v else some ll }
  let b4 := { b3 with
    volumeBuy := b3.volumeBuy + p.volumeBuy.getD 0,
    volumeSell := b3.volumeSell + p.volumeSell.getD 0,
    volumeBuyQuote := b3.volumeBuyQuote + p.volumeBuyQuote.getD 0,
    volumeSellQuote := b3.volumeSellQuote + p.volumeSellQuote.getD 0 }
  let b5 := { b4 with
    totalVolume := b4.volumeBuy + b4.volumeSell,
    totalQuoteVolume := b4.volumeBuyQuote + b4.volumeSellQuote }
  let b6 := match price with
    | none => b5
    | some v =>
      { b5 with
        priceOpen := match b5.priceOpen with | none => some v | some w => some w,
        priceClose := some v }
  ({ b6 with count := b6.count + 1 }, countedOOO)

/-- JavaScript `low <= x && x <= high` on a possibly-`NaN` (`none`) field:
`NaN` entries impose no constraint here. -/
def obox (l h : ℚ) : Option ℚ → Prop
  | none => True
  | some x => l ≤ x ∧ x ≤ h

/-- OI-OHLC consistency of the four OI fields: high/low are either both
unset or both set with every set open/close value between them. -/
def quadOI (oo oc oh ol : Option ℚ) : Prop :=
  match ol, oh with
  | some l, some h => l ≤ h ∧ obox l h oo ∧ obox l h oc
  | none, none => oo = none ∧ oc = none
  | some _, none => False
  | none, some _ => False

def bucketOIConsistent (b : Bucket) : Prop :=
  quadOI b.oiOpen b.oiClose b.oiHigh b.oiLow

/-- The `oiOpen`/`oiClose` assignment of one update: overwritten by the
point's OI when the guard (rewind, resp. newest-in-bucket) holds. -/
def oiEdgeStep (r : Prop) [Decidable r] (oi cur : Option ℚ) : Option ℚ :=
  if r then (match oi with | some v => some v | none => cur) else cur

/-- The `oiHigh` update of one point (`NaN`-aware maximum). -/
def oiHighStep (oi oh : Option ℚ) : Option ℚ :=
  match oi with
  | none => oh
  | some v =>
    match oh with
    | none => some v
    | some hh => if hh < v then some v else some hh

/-- The `oiLow` update of one point (`NaN`-aware minimum). -/
def oiLowStep (oi ol : Option ℚ) : Option ℚ :=
  match oi with
  | none => ol
  | some v =>
    match ol with
    | none => some v
    | some ll => if v < ll then some v else some ll

/-- Every bucket stored in a map is OI-OHLC consistent. -/
def mapOIConsistent (m : SortedBucketMap) : Prop :=
  ∀ q ∈ m.pairs, bucketOIConsistent q.2

/-- One pass of `enforceLimit`'s deletion loop.  The source iterates the
index over the LIVE sorted-key array (`getSortedKeys` returns the array
itself) while `delete` splices it, so the key is re-read from the current
array at each step; an out-of-range read is a no-op delete. -/
def elGo : SortedBucketMap → ℕ → ℕ → SortedBucketMap
  | m, _, 0 => m
  | m, i, steps + 1 =>
    match m.sortedKeys[i]? with
    | some k => elGo (m.delete k) (i + 1) steps
    | none => elGo m (i + 1) steps

/-- `BucketRepository.enforceLimit` with the default limits: 300 buckets at
the 15 s resolution, 70 otherwise. -/
def enforceLimit (m : SortedBucketMap) (bucketSize : ℚ) : SortedBucketMap :=
  let limit := if bucketSize = 15000 then MAX_15S_BUCKETS else MAX_MINUTE_BUCKETS
  if m.sortedKeys.length ≤ limit then m
  else elGo m 0 (m.sortedKeys.length - limit)

/-- The bucket-count limit `enforceLimit` applies for a resolution: 300 at
the 15 s bucket size, 70 otherwise (i.e. at 60 s). -/
def limitFor (bucketSize : ℚ) : ℕ :=
  if bucketSize = 15000 then MAX_15S_BUCKETS else MAX_MINUTE_BUCKETS

/-- `BucketRepository.updateBucket` for one resolution map: bucket-time
alignment, lazy creation, point application, write-back, limit enforcement.
The source `map.set`s a fresh bucket and then mutates it in place; the net
effect is the single write-back of the mutated bucket performed here.
Also threads the per-symbol out-of-order counter. -/
def updateBucketMap (m : SortedBucketMap) (ooo : ℕ) (p : Payload)
    (lastPriceFallback lastOIFallback : Option ℚ) (bucketSize : ℚ) :
    SortedBucketMap × ℕ :=
  let bucketTime := (⌊ratDiv p.timestamp bucketSize⌋ : ℚ) * bucketSize
  let b0 := match m.get bucketTime with
    | some b => b
    | none => mkBucket p lastPriceFallback lastOIFallback
  let res := applyPoint b0 p
  let m1 := m.set bucketTime res.1
  (enforceLimit m1 bucketSize, if res.2 then ooo + 1 else ooo)

/-- Folding a sequence of raw points (with their price/OI fallbacks) into
one resolution map, as repeated `addRawPoint` calls do. -/
def foldUpdates (bucketSize : ℚ) :
    SortedBucketMap × ℕ → List (Payload × Option ℚ × Option ℚ) → SortedBucketMap × ℕ
  | st, [] => st
  | (m, ooo), (p, lp, loi) :: rest =>
    foldUpdates bucketSize (updateBucketMap m ooo p lp loi bucketSize) rest

/-! ### MetricsCalculator (`src/unnamed/part_015`, first class) -/

/-- JavaScript `a ?? b` on nullable numbers. -/
def opOr (a b : Option ℚ) : Option ℚ :=
  match a with
  | some x => some x
  | none => b

/-- Running minimum into an optional accumulator. -/
def optMin (acc : Option ℚ) (v : ℚ) : Option ℚ :=
  match acc with
  | none => some v
  | some a => some (min a v)

/-- Running maximum into an optional accumulator. -/
def optMax (acc : Option ℚ) (v : ℚ) : Option ℚ :=
  match acc with
  | none => some v
  | some a => some (max a v)

/-- `MetricsCalculator.interpolate`. -/
def interpolate (t0 p0 t1 p1 t : ℚ) : ℚ :=
  if t1 = t0 then p0 else p0 + (p1 - p0) * ratDiv (t - t0) (t1 - t0)

/-- The boundary binary-search loop shared by `getOIAtBoundary`,
`getPriceAtBoundary`: the largest index whose key is at or before the
boundary (`none` = the source's `-1`).  Fuel keeps it structural. -/
def boundaryIdxGo (keys : List ℚ) (boundary : ℚ) :
    ℕ → ℕ → ℤ → Option ℕ → Option ℕ
  | 0, _, _, idx => idx
  | fuel + 1, left, right, idx =>
    if (left : ℤ) ≤ right then
      let mid := (left + right.toNat) / 2
      if keys.getD mid 0 ≤ boundary then
        boundaryIdxGo keys boundary fuel (mid + 1) right (some mid)
      else boundaryIdxGo keys boundary fuel left ((mid : ℤ) - 1) idx
    else idx

def boundaryIdx (keys : List ℚ) (boundary : ℚ) : Option ℕ :=
  boundaryIdxGo keys boundary (keys.length + 1) 0 ((keys.length : ℤ) - 1) none

/-- `MetricsCalculator.getOIAtBoundary`: the point-in-time OI at a boundary,
interpolated inside a bucket, else between the neighbouring buckets, else
taken from the nearest available side. -/
def getOIAtBoundary (m : SortedBucketMap) (boundary : ℚ) : Option ℚ :=
  let keys := m.getSortedKeys
  if keys.length = 0 then none else
  let idx := boundaryIdx keys boundary
  let leftKey : Option ℚ := match idx with
    | some i => some (keys.getD i 0)
    | none => none
  let idxInt : ℤ := match idx with
    | some i => (i : ℤ)
    | none => -1
  let rightKey : Option ℚ :=
    if idxInt + 1 < (keys.length : ℤ) then some (keys.getD (idxInt + 1).toNat 0)
    else none
  if leftKey.isSome ∧ leftKey = rightKey then
    match m.get (leftKey.getD 0) with
    | none => none
    | some b =>
      match b.oiOpen, b.oiClose with
      | some o, some c =>
        if b.firstTs ≤ boundary ∧ boundary ≤ b.lastTs then
          some (interpolate b.firstTs o b.lastTs c boundary)
        else if boundary < b.firstTs then some o
        else some c
      | _, _ => none
  else
    let leftBucket : Option Bucket := match leftKey with
      | some k => m.get k
      | none => none
    let rightBucket : Option Bucket := match rightKey with
      | some k => m.get k
      | none => none
    let tryLeft : Option ℚ := match leftBucket with
      | some lb =>
        match lb.oiOpen, lb.oiClose with
        | some o, some c =>
          if lb.firstTs ≤ boundary ∧ boundary ≤ lb.lastTs then
            some (interpolate lb.firstTs o lb.lastTs c boundary)
          else none
        | _, _ => none
      | none => none
    match tryLeft with
    | some r => some r
    | none =>
      let tryRight : Option ℚ := match rightBucket with
        | some rb =>
          match rb.oiOpen, rb.oiClose with
          | some o, some c =>
            if rb.firstTs ≤ boundary ∧ boundary ≤ rb.lastTs then
              some (interpolate rb.firstTs o rb.lastTs c boundary)
            else none
          | _, _ => none
        | none => none
      match tryRight with
      | some r => some r
      | none =>
        match leftBucket, rightBucket with
        | some lb, some rb =>
          let prevTime := lb.lastTs
          let nextTime := rb.firstTs
          match lb.oiClose, rb.oiOpen with
          | none, none => none
          | some p, none => some p
          | none, some n => some n
          | some p, some n =>
            if prevTime ≤ boundary ∧ boundary ≤ nextTime ∧ prevTime < nextTime then
              some (interpolate prevTime p nextTime n boundary)
            else if |boundary - prevTime| ≤ |nextTime - boundary| then some p
            else some n
        | some lb, none =>
          match lb.oiClose with
          | some c => some c
          | none => none
        | none, some rb =>
          match rb.oiOpen with
          | some o => some o
          | none => none
        | none, none => none

/-- `MetricsCalculator.getPriceAtBoundary`: as for OI but over the nullable
price fields, with null-coalescing fallbacks on either side. -/
def getPriceAtBoundary (m : SortedBucketMap) (boundary : ℚ) : Option ℚ :=
  let keys := m.getSortedKeys
  if keys.length = 0 then none else
  let idx := boundaryIdx keys boundary
  let leftKey : Option ℚ := match idx with
    | some i => some (keys.getD i 0)
    | none => none
  let idxInt : ℤ := match idx with
    | some i => (i : ℤ)
    | none => -1
  let rightKey : Option ℚ :=
    if idxInt + 1 < (keys.length : ℤ) then some (keys.getD (idxInt + 1).toNat 0)
    else none
  if leftKey.isSome ∧ leftKey = rightKey then
    match m.get (leftKey.getD 0) with
    | none => none
    | some b =>
      match b.priceOpen, b.priceClose with
      | some o, some c =>
        if b.firstTs ≤ boundary ∧ boundary ≤ b.lastTs then
          some (interpolate b.firstTs o b.lastTs c boundary)
        else if boundary < b.firstTs then some o
        else some c
      | po, _ =>
        if boundary < b.firstTs then po
        else b.priceClose
  else
    let leftBucket : Option Bucket := match leftKey with
      | some k => m.get k
      | none => none
    let rightBucket : Option Bucket := match rightKey with
      | some k => m.get k
      | none => none
    let tryLeft : Option ℚ := match leftBucket with
      | some lb =>
        match lb.priceOpen, lb.priceClose with
        | some o, some c =>
          if lb.firstTs ≤ boundary ∧ boundary ≤ lb.lastTs then
            some (interpolate lb.firstTs o lb.lastTs c boundary)
          else none
        | _, _ => none
      | none => none
    match tryLeft with
    | some r => some r
    | none =>
      let tryRight : Option ℚ := match rightBucket with
        | some rb =>
          match rb.priceOpen, rb.priceClose with
          | some o, some c =>
            if rb.firstTs ≤ boundary ∧ boundary ≤ rb.lastTs then
              some (interpolate rb.firstTs o rb.lastTs c boundary)
            else none
          | _, _ => none
        | none => none
      match tryRight with
      | some r => some r
      | none =>
        match leftBucket, rightBucket with
        | some lb, some rb =>
          let prevTime := lb.lastTs
          let nextTime := rb.firstTs
          let prevPrice := opOr lb.priceClose lb.priceOpen
          let nextPrice := opOr rb.priceOpen rb.priceClose
          match prevPrice, nextPrice with
          | none, none => none
          | some p, none => some p
          | none, some n => some n
          | some p, some n =>
            if prevTime ≤ boundary ∧ boundary ≤ nextTime ∧ prevTime < nextTime then
              some (interpolate prevTime p nextTime n boundary)
            else if |boundary - prevTime| ≤ |nextTime - boundary| then some p
            else some n
        | some lb, none => opOr lb.priceClose lb.priceOpen
        | none, some rb => opOr rb.priceOpen rb.priceClose
        | none, none => none

/-- Accumulator of `findOIAndVolumeWithinWindow`'s scan loop.  The source's
`Number.MAX_VALUE` / `Number.MIN_VALUE` sentinels for the min/max trackers
are modelled as `none` (reset to 0 after the loop, as in the source). -/
structure FovAcc where
  totalVolume : ℚ
  totalBuy : ℚ
  totalSell : ℚ
  totalQuoteVolume : ℚ
  totalQuoteBuy : ℚ
  totalQuoteSell : ℚ
  priceFallbackStart : Option ℚ
  seenAny : Bool
  minOI : Option ℚ
  maxOI : Option ℚ
  minPrice : Option ℚ
  maxPrice : Option ℚ
deriving DecidableEq, Repr

/-- The scan over the sorted keys in `findOIAndVolumeWithinWindow`:
skip buckets ending at or before the window, stop at buckets starting at or
after its end, weight volume sums by the overlap fraction, track min/max OI
and price.  A key missing from the map is skipped (unreachable under the
`SortedBucketMap` invariant). -/
def fovLoop (m : SortedBucketMap) (windowStart windowEnd bucketSize : ℚ) :
    List ℚ → FovAcc → FovAcc
  | [], acc => acc
  | k :: rest, acc =>
    let bucketEnd := k + bucketSize
    if bucketEnd ≤ windowStart then fovLoop m windowStart windowEnd bucketSize rest acc
    else if windowEnd ≤ k then acc
    else
      match m.get k with
      | none => fovLoop m windowStart windowEnd bucketSize rest acc
      | some b =>
        if b.count = 0 then fovLoop m windowStart windowEnd bucketSize rest acc
        else
          let overlapStart := max windowStart k
          let overlapEnd := min windowEnd bucketEnd
          let overlapMs := max 0 (overlapEnd - overlapStart)
          if overlapMs ≤ 0 then fovLoop m windowStart windowEnd bucketSize rest acc
          else
            let ratio := if 0 < bucketSize then min 1 (ratDiv overlapMs bucketSize) else 1
            let mn0 := match b.oiLow with
              | some v => optMin acc.minOI v
              | none => acc.minOI
            let mx0 := match b.oiHigh with
              | some v => optMax acc.maxOI v
              | none => acc.maxOI
            let mn1 := match b.oiOpen with
              | some v => optMin mn0 v
              | none => mn0
            let mx1 := match b.oiOpen with
              | some v => optMax mx0 v
              | none => mx0
            let mn2 := match b.oiClose with
              | some v => optMin mn1 v
              | none => mn1
            let mx2 := match b.oiClose with
              | some v => optMax mx1 v
              | none => mx1
            let pmn1 := match b.priceOpen with
              | some v => optMin acc.minPrice v
              | none => acc.minPrice
            let pmx1 := match b.priceOpen with
              | some v => optMax acc.maxPrice v
              | none => acc.maxPrice
            let pmn2 := match b.priceClose with
              | some v => optMin pmn1 v
              | none => pmn1
            let pmx2 := match b.priceClose with
              | some v => optMax pmx1 v
              | none => pmx1
            let acc1 : FovAcc :=
              { totalVolume := acc.totalVolume + b.totalVolume * ratio
                totalBuy := acc.totalBuy + b.volumeBuy * ratio
                totalSell := acc.totalSell + b.volumeSell * ratio
                totalQuoteVolume := acc.totalQuoteVolume + b.totalQuoteVolume * ratio
                totalQuoteBuy := acc.totalQuoteBuy + b.volumeBuyQuote * ratio
                totalQuoteSell := acc.totalQuoteSell + b.volumeSellQuote * ratio
                priceFallbackStart :=
                  match acc.priceFallbackStart, b.priceOpen with
                  | none, some p => some p
                  | s, _ => s
                seenAny := true
                minOI := mn2, maxOI := mx2, minPrice := pmn2, maxPrice := pmx2 }
            fovLoop m windowStart windowEnd bucketSize rest acc1

/-- The record `findOIAndVolumeWithinWindow` returns. -/
structure Movement where
  hasOI : Bool
  oiChangePercent : ℚ
  oiStart : ℚ
  oiEnd : ℚ
  totalVolume : ℚ
  totalQuoteVolume : ℚ
  deltaVolume : ℚ
  deltaQuoteVolume : ℚ
  priceFallbackStart : Option ℚ
  minOI : ℚ
  maxOI : ℚ
  minPrice : ℚ
  maxPrice : ℚ
deriving DecidableEq, Repr

/-- `MetricsCalculator.findOIAndVolumeWithinWindow`. -/
def findOIAndVolumeWithinWindow (m : SortedBucketMap)
    (windowStart windowEnd bucketSize : ℚ)
    (currentOI currentPrice : Option ℚ) : Option Movement :=
  let keys := m.getSortedKeys
  if keys.length = 0 then none else
  let acc0 : FovAcc :=
    { totalVolume := 0, totalBuy := 0, totalSell := 0,
      totalQuoteVolume := 0, totalQuoteBuy := 0, totalQuoteSell := 0,
      priceFallbackStart := none, seenAny := false,
      minOI := currentOI, maxOI := currentOI,
      minPrice := currentPrice, maxPrice := currentPrice }
  let acc := fovLoop m windowStart windowEnd bucketSize keys acc0
  if acc.seenAny = false then none else
  let oiStartB := getOIAtBoundary m windowStart
  let oiEndB := getOIAtBoundary m windowEnd
  let hasPct : Bool × ℚ :=
    match oiStartB, oiEndB with
    | some s, some e => if 0 < s then (true, round6 (ratDiv (e - s) s * 100)) else (false, 0)
    | _, _ => (false, 0)
  some
    { hasOI := hasPct.1, oiChangePercent := hasPct.2,
      oiStart := oiStartB.getD 0, oiEnd := oiEndB.getD 0,
      totalVolume := acc.totalVolume, totalQuoteVolume := acc.totalQuoteVolume,
      deltaVolume := acc.totalBuy - acc.totalSell,
      deltaQuoteVolume := acc.totalQuoteBuy - acc.totalQuoteSell,
      priceFallbackStart := acc.priceFallbackStart,
      minOI := acc.minOI.getD 0, maxOI := acc.maxOI.getD 0,
      minPrice := acc.minPrice.getD 0, maxPrice := acc.maxPrice.getD 0 }

/-- The record `fallbackInterpolationForOI` returns. -/
structure FallbackResult where
  oiChangePercent : ℚ
  oiStart : ℚ
  oiEnd : ℚ
deriving DecidableEq, Repr

/-- `MetricsCalculator.fallbackInterpolationForOI` with the default
`FALLBACK_SHIFT_MULTIPLIER = 2`.  (The source's trailing `minutes` parameter
is unused there and dropped here.) -/
def fallbackInterpolationForOI (m : SortedBucketMap)
    (startBucket endBucket bucketSize durationMs : ℚ) : Option FallbackResult :=
  let keys := m.getSortedKeys
  if keys.length = 0 then none else
  let maxShift := min (2 * bucketSize) (durationMs * mkRat 5 100)
  let beforeStart := keys.filter (fun k => decide (k ≤ startBucket))
  let afterStart := keys.filter (fun k => decide (startBucket < k))
  let startKey0 : Option ℚ :=
    match beforeStart.getLast? with
    | some k => if maxShift < startBucket - k then none else some k
    | none => none
  let startRes : Option (Option ℚ) :=
    match startKey0, afterStart.head? with
    | some k, _ => some (some k)
    | none, some c => if c - startBucket ≤ maxShift then some (some c) else none
    | none, none => some none
  match startRes with
  | none => none
  | some startKeyOpt =>
    let beforeEnd := keys.filter (fun k => decide (k ≤ endBucket))
    let endKey0 : Option ℚ :=
      match beforeEnd.getLast? with
      | some k => if maxShift < endBucket - k then none else some k
      | none => none
    let endRes : Option (Option ℚ) :=
      match endKey0, keys.getLast? with
      | some k, _ => some (some k)
      | none, some c => if endBucket - c ≤ maxShift then some (some c) else none
      | none, none => some none
    match endRes with
    | none => none
    | some endKeyOpt =>
      match startKeyOpt, endKeyOpt with
      | some startKey, some endKey =>
        if endKey < startKey then
          none
        else
          match m.get startKey, m.get endKey with
          | some s, some e =>
            let startOI := opOr (getOIAtBoundary m startBucket) s.oiOpen
            let endOI := opOr (getOIAtBoundary m endBucket) e.oiClose
            match startOI, endOI with
            | some so, some eo =>
              if so ≤ 0 then none
              else some ⟨round6 (ratDiv (eo - so) so * 100), so, eo⟩
            | _, _ => none
          | _, _ => none
      | _, _ => none

/-- The metrics record `calculateWindow` returns (the literal at the end of
`MetricsCalculator.calculateWindow`). -/
structure IMetricChanges where
  oiChangePercent : ℚ
  oiStart : ℚ
  oiEnd : ℚ
  totalVolume : ℚ
  deltaVolume : ℚ
  totalQuoteVolume : ℚ
  deltaQuoteVolume : ℚ
  volumeBaseline : ℚ
  volumeBaselineQuote : ℚ
  volumeRatio : Option ℚ
  volumeRatioQuote : Option ℚ
  priceChangePercent : ℚ
  timeWindowSeconds : ℚ
deriving DecidableEq, Repr

/-- The OI-fallback triple of `calculateWindow` (`oiChangePercent`,
`oiStart`, `oiEnd` from `fallbackInterpolationForOI` when the map is
non-empty and the fallback succeeds, zeros otherwise). -/
def fallbackTripleFor (m : SortedBucketMap)
    (windowStart windowEnd bucketSize durationMs : ℚ) : ℚ × ℚ × ℚ :=
  if 0 < m.getSortedKeys.length then
    match fallbackInterpolationForOI m windowStart windowEnd bucketSize durationMs with
    | some fb => (fb.oiChangePercent, fb.oiStart, fb.oiEnd)
    | none => (0, 0, 0)
  else (0, 0, 0)

/-- The max-deviation OI selection of `calculateWindow`: with OI-bearing
movement and a finite current OI, pick the change (from min or from max)
with the larger absolute value; otherwise the fallback triple. -/
def oiTripleFor (movement : Option Movement) (currentOI : Option ℚ)
    (fb : ℚ × ℚ × ℚ) : ℚ × ℚ × ℚ :=
  match movement, currentOI with
  | some mv, some c =>
    if mv.hasOI = true then
      let changeFromMin := if 0 < mv.minOI then ratDiv (c - mv.minOI) mv.minOI * 100 else 0
      let changeFromMax := if 0 < mv.maxOI then ratDiv (c - mv.maxOI) mv.maxOI * 100 else 0
      if |changeFromMax| < |changeFromMin| then (changeFromMin, mv.minOI, c)
      else (changeFromMax, mv.maxOI, c)
    else fb
  | _, _ => fb

/-- `MetricsCalculator.calculateWindow`.  `Date.now()` is the explicit `now`;
the function always returns a record (its only `return` is the final one). -/
def calculateWindow (m : SortedBucketMap) (minutes bucketSize : ℚ)
    (currentPrice currentOI : Option ℚ) (now : ℚ) : IMetricChanges :=
  let durationMs := minutes * 60000
  let windowStart := now - durationMs
  let windowEnd := now
  let movement :=
    findOIAndVolumeWithinWindow m windowStart windowEnd bucketSize currentOI currentPrice
  let totalVolume := match movement with
    | some mv => mv.totalVolume
    | none => 0
  let deltaVolume := match movement with
    | some mv => mv.deltaVolume
    | none => 0
  let totalQuoteVolume := match movement with
    | some mv => mv.totalQuoteVolume
    | none => 0
  let deltaQuoteVolume := match movement with
    | some mv => mv.deltaQuoteVolume
    | none => 0
  let fallbackTriple : ℚ × ℚ × ℚ :=
    fallbackTripleFor m windowStart windowEnd bucketSize durationMs
  let oiTriple : ℚ × ℚ × ℚ := oiTripleFor movement currentOI fallbackTriple
  let elseIfBranch : ℚ :=
    match currentPrice, movement with
    | some cp, some mv =>
      if cp ≠ 0 then
        match mv.priceFallbackStart with
        | some pfs => if 0 < pfs then round6 (ratDiv (cp - pfs) pfs * 100) else 0
        | none => 0
      else 0
    | _, _ => 0
  let priceElse : ℚ :=
    match getPriceAtBoundary m windowStart, opOr (getPriceAtBoundary m windowEnd) currentPrice with
    | some sp, some ep => if 0 < sp then round6 (ratDiv (ep - sp) sp * 100) else elseIfBranch
    | _, _ => elseIfBranch
  let priceChangePercent : ℚ :=
    match movement, currentPrice with
    | some mv, some cp =>
      match mv.priceFallbackStart with
      | some _ =>
        let changeFromMin :=
          if 0 < mv.minPrice then ratDiv (cp - mv.minPrice) mv.minPrice * 100 else 0
        let changeFromMax :=
          if 0 < mv.maxPrice then ratDiv (cp - mv.maxPrice) mv.maxPrice * 100 else 0
        if |changeFromMax| < |changeFromMin| then changeFromMin else changeFromMax
      | none => priceElse
    | _, _ => priceElse
  let previousWindowStart := windowStart - durationMs
  let baselineQuad : ℚ × ℚ × Option ℚ × Option ℚ :=
    if 0 ≤ previousWindowStart then
      match findOIAndVolumeWithinWindow m previousWindowStart windowStart bucketSize
        none none with
      | some pm =>
        let vb := pm.totalVolume
        let vbq := pm.totalQuoteVolume
        let vr : Option ℚ :=
          if 0 < vb ∧ 0 < totalVolume then some (round3 (ratDiv totalVolume vb)) else none
        let vrq : Option ℚ :=
          if 0 < vbq ∧ 0 < totalQuoteVolume then some (round3 (ratDiv totalQuoteVolume vbq))
          else none
        (vb, vbq, vr, vrq)
      | none => (0, 0, none, none)
    else (0, 0, none, none)
  { oiChangePercent := round6 oiTriple.1
    oiStart := oiTriple.2.1
    oiEnd := oiTriple.2.2
    totalVolume := totalVolume
    deltaVolume := deltaVolume
    totalQuoteVolume := totalQuoteVolume
    deltaQuoteVolume := deltaQuoteVolume
    volumeBaseline := baselineQuad.1
    volumeBaselineQuote := baselineQuad.2.1
    volumeRatio := baselineQuad.2.2.1
    volumeRatioQuote := baselineQuad.2.2.2
    priceChangePercent := priceChangePercent
    timeWindowSeconds := max 1 ((⌊ratDiv durationMs 1000⌋ : ℤ) : ℚ) }

/-! ### DataAggregatorService (`src/src/infrastructure/services/data-aggregator.service.ts`) -/

/-- The in-memory state `getMetricChanges` reads: the two per-symbol bucket
stores of `BucketRepository` and the `MarketStateManager` maps. -/
structure AggState where
  buckets15s : List (String × SortedBucketMap)
  buckets1m : List (String × SortedBucketMap)
  lastKnownPrices : List (String × ℚ)
  lastKnownOI : List (String × ℚ)
  firstSeen : List (String × ℚ)
deriving DecidableEq

/-- String-keyed association lookup (JavaScript `Map.get`). -/
def lookupS {β : Type} : List (String × β) → String → Option β
  | [], _ => none
  | (k, v) :: rest, key => if k = key then some v else lookupS rest key

/-- `DataAggregatorService.getMetricChanges`: null on falsy symbol or
non-positive interval; resolution 15 s iff the interval is ≤ 2 minutes;
null when no bucket map exists or it is empty; null during warmup
(`firstSeen`, defaulting to `now`, more recent than `now − interval`);
otherwise the `calculateWindow` result. -/
def getMetricChanges (st : AggState) (now : ℚ) (symbol : String) (mins : ℚ) :
    Option IMetricChanges :=
  if symbol = "" ∨ mins ≤ 0 then none else
  let use15s := mins ≤ 2
  let store := if use15s then st.buckets15s else st.buckets1m
  match lookupS store symbol with
  | none => none
  | some bucketMap =>
    if bucketMap.size = 0 then none else
    let firstSeen := (lookupS st.firstSeen symbol).getD now
    if now - firstSeen < mins * 60000 then none else
    let currentPrice := lookupS st.lastKnownPrices symbol
    let currentOI := lookupS st.lastKnownOI symbol
    let bucketSize : ℚ := if use15s then 15000 else 60000
    some (calculateWindow bucketMap mins bucketSize currentPrice currentOI now)

/-! ### TriggerEngineService (`src/src/infrastructure/services/trigger-engine.service.ts`) -/

/-- `TriggerEngineService.calculateCheckInterval` with parametric base
interval and debounce threshold (env defaults: 1000 ms and 3). -/
def calculateCheckInterval (baseMs : ℚ) (debounceThreshold : ℕ) (n : ℕ) : ℚ :=
  if n < debounceThreshold then baseMs
  else baseMs * 2 ^ (min (n - debounceThreshold + 1) 8 - 1)

/-! ### NotificationService (`src/src/infrastructure/services/notification.service.ts`) -/

/-- One `processTrigger` call: the fired trigger, the symbol, the trigger's
`notificationLimitSeconds` and `Date.now()` at the call. -/
structure NotifEvent where
  userId : ℤ
  symbol : String
  limitSeconds : ℚ
  now : ℚ
deriving DecidableEq

/-- The per-(userId, symbol) cooldown key. -/
abbrev NotifKey := ℤ × String

/-- The `notificationCooldowns` map. -/
abbrev NotifState := List (NotifKey × ℚ)

/-- The cooldown gate of `NotificationService.processTrigger`: suppress when
the key fired within `notificationLimitSeconds * 1000` ms, otherwise record
the time and hand the signal on.  The source's `lastNotification &&`
truthiness makes a stored timestamp of exactly 0 behave as absent. -/
def processTriggerStep (st : NotifState) (e : NotifEvent) : Bool × NotifState :=
  let key : NotifKey := (e.userId, e.symbol)
  let cooldownMs := e.limitSeconds * 1000
  match lookupA st key with
  | some t0 =>
    if t0 ≠ 0 ∧ e.now - t0 < cooldownMs then (false, st)
    else (true, setA st key e.now)
  | none => (true, setA st key e.now)

/-- Run a sequence of `processTrigger` calls, collecting the (key, time) of
each notification that was actually handed to the signal handler. -/
def runNotifications : NotifState → List NotifEvent → List (NotifKey × ℚ)
  | _, [] => []
  | st, e :: rest =>
    let r := processTriggerStep st e
    if r.1 then ((e.userId, e.symbol), e.now) :: runNotifications r.2 rest
    else runNotifications r.2 rest

/-- The times of the emitted notifications for one cooldown key. -/
def emitsFor (st : NotifState) (events : List NotifEvent) (key : NotifKey) : List ℚ :=
  ((runNotifications st events).filter (fun x => decide (x.1 = key))).map Prod.snd

/-! ### SignalHandler (`src/unnamed/part_019`) -/

/-- External effects of `SignalHandler.handleSignal`. -/
inductive SignalEvent
  | persistSignal (signalNumber : ℕ) (symbol : String)
  | persistFailed (signalNumber : ℕ) (symbol : String)
  | sendTelegram (signalNumber : ℕ) (symbol : String)
deriving DecidableEq

/-- `SignalHandler.handleSignal` as its external-effect trace: query the
24 h per-(trigger, symbol) signal count, persist a `Signal` stamped
`count + 1`, and only then send the chat message.  The whole body is one
try/catch, so a failing step aborts everything after it. -/
def handleSignal (priorCount24h : ℕ) (symbol : String)
    (countQueryOk saveOk : Bool) : List SignalEvent :=
  if countQueryOk = false then []
  else
    let num := priorCount24h + 1
    if saveOk then [.persistSignal num symbol, .sendTelegram num symbol]
    else [.persistFailed num symbol]

/-! ### MessageQueueService (`src/src/infrastructure/services/trigger-engine.service.ts`,
second class) -/

/-- The `SignalDto` fields the queue consults. -/
structure SignalLite where
  symbol : String
  oiChangePercent : ℚ
deriving DecidableEq

/-- `MessagePriority`. -/
inductive MessagePriority
  | high
  | normal
  | low
deriving DecidableEq

/-- `MessageQueueService.calculatePriority`: HIGH for ≥ 10 % absolute OI
change, NORMAL for ≥ 5 %, LOW otherwise; NORMAL without a signal. -/
def calculatePriority (signal : Option SignalLite) : MessagePriority :=
  match signal with
  | none => .normal
  | some s =>
    let oiChange := |s.oiChangePercent|
    if 10 ≤ oiChange then .high
    else if 5 ≤ oiChange then .normal
    else .low

/-- The deduplication key: chat, symbol, OI% rounded to 0.1.  The source
concatenates the three into a string, injectively for ticker symbols, so
the triple is an equivalent key. -/
abbrev DedupKey := ℤ × String × ℚ

/-- `MessageQueueService.getDedupKey`. -/
def getDedupKey (chatId : ℤ) (s : SignalLite) : DedupKey :=
  (chatId, s.symbol, ratDiv (jsRound (s.oiChangePercent * 10) : ℚ) 10)

/-- A queued outbound message (the debug-only `id` string is omitted). -/
structure QueuedMessage where
  chatId : ℤ
  message : String
  priority : MessagePriority
  signal : Option SignalLite
  timestamp : ℚ
  retryCount : ℕ
deriving DecidableEq

/-- The queue state: the three priority queues, the `recentSignals` dedup
map and the stats counters the claims mention. -/
structure MQState where
  qHigh : List QueuedMessage
  qNormal : List QueuedMessage
  qLow : List QueuedMessage
  recentSignals : List (DedupKey × ℚ)
  statsDeduplicated : ℕ
  statsDropped : ℕ
deriving DecidableEq

/-- `MessageQueueService.getTotalQueueSize`. -/
def getTotalQueueSize (st : MQState) : ℕ :=
  st.qHigh.length + st.qNormal.length + st.qLow.length

/-- `MessageQueueService.isDuplicate`: a key emitted less than 5000 ms ago.
`!lastSent` treats a stored time of exactly 0 as absent. -/
def isDuplicate (st : MQState) (chatId : ℤ) (s : SignalLite) (now : ℚ) : Bool :=
  match lookupA st.recentSignals (getDedupKey chatId s) with
  | none => false
  | some t0 => if t0 = 0 then false else decide (now - t0 < 5000)

/-- `MessageQueueService.dropLowPriorityMessages`: drop the oldest LOW
message if any, else the oldest NORMAL, else nothing. -/
def dropLowPriorityMessages (st : MQState) : MQState :=
  match st.qLow with
  | _ :: rest => { st with qLow := rest, statsDropped := st.statsDropped + 1 }
  | [] =>
    match st.qNormal with
    | _ :: rest => { st with qNormal := rest, statsDropped := st.statsDropped + 1 }
    | [] => st

/-- `queue.push(queuedMessage)` on the queue of the message's priority. -/
def pushMsg (st : MQState) (msg : QueuedMessage) : MQState :=
  match msg.priority with
  | .high => { st with qHigh := st.qHigh ++ [msg] }
  | .normal => { st with qNormal := st.qNormal ++ [msg] }
  | .low => { st with qLow := st.qLow ++ [msg] }

/-- `MessageQueueService.enqueue`: dedup check (drop and count), then the
cap check (at ≥ 1000 drop one LOW/NORMAL), push, and record the dedup key.
Returns the source's boolean (true = queued). -/
def enqueue (st : MQState) (chatId : ℤ) (message : String)
    (signal : Option SignalLite) (now : ℚ) : Bool × MQState :=
  let priority := calculatePriority signal
  let dup := match signal with
    | some s => isDuplicate st chatId s now
    | none => false
  if dup then (false, { st with statsDeduplicated := st.statsDeduplicated + 1 })
  else
    let msg : QueuedMessage :=
      { chatId := chatId, message := message, priority := priority,
        signal := signal, timestamp := now, retryCount := 0 }
    let st1 := if 1000 ≤ getTotalQueueSize st then dropLowPriorityMessages st else st
    let st2 := pushMsg st1 msg
    let st3 := match signal with
      | some s =>
        { st2 with recentSignals := setA st2.recentSignals (getDedupKey chatId s) now }
      | none => st2
    (true, st3)

/-- Run a sequence of enqueues, collecting the returned booleans. -/
def runEnqueues (st : MQState) :
    List (ℤ × String × Option SignalLite × ℚ) → List Bool × MQState
  | [] => ([], st)
  | (cid, msg, sig, now) :: rest =>
    let r := enqueue st cid msg sig now
    let rr := runEnqueues r.2 rest
    (r.1 :: rr.1, rr.2)

/-- A run of HIGH-priority signal enqueues (10 % OI change) from distinct
chats, so no two share a dedup key. -/
def highEvents : ℤ → ℕ → List (ℤ × String × Option SignalLite × ℚ)
  | _, 0 => []
  | base, n + 1 => (base, "m", some ⟨"XUSDT", 10⟩, (1 : ℚ)) :: highEvents (base + 1) n

/-- A concrete sorted map with `n` buckets at keys `0, 1, …, n − 1`, used to
exercise `enforceLimit` on an over-full map. -/
def rangeMap (n : ℕ) : SortedBucketMap :=
  ⟨(List.range n).map
      (fun i : ℕ =>
        ((i : ℚ), mkBucket ⟨0, none, none, none, none, none, none⟩ none none)),
   (List.range n).map (fun i : ℕ => (i : ℚ))⟩

/-! ### Association-list lemmas -/

theorem ratDiv_eq (a b : ℚ) : ratDiv a b = a / b := by
  rw [ratDiv, Rat.div_def, Rat.inv_def]

theorem lookupA_isSome_iff {α β : Type} [DecidableEq α] (l : List (α × β)) (key : α) :
    (lookupA l key).isSome = true ↔ key ∈ l.map Prod.fst := by
  induction l with
  | nil => simp [lookupA]
  | cons p rest ih =>
    obtain ⟨k, v⟩ := p
    by_cases h : k = key
    · subst h; simp [lookupA]
    · simp [lookupA, h, ih, Ne.symm h]

theorem lookupA_mem {α β : Type} [DecidableEq α] {l : List (α × β)} {key : α} {b : β}
    (h : lookupA l key = some b) : (key, b) ∈ l := by
  induction l with
  | nil => simp [lookupA] at h
  | cons p rest ih =>
    obtain ⟨k, v⟩ := p
    by_cases hk : k = key
    · subst hk
      simp [lookupA] at h
      subst h
      exact List.mem_cons_self _ _
    · simp [lookupA, hk] at h
      exact List.mem_cons_of_mem _ (ih h)

theorem mem_setA {α β : Type} [DecidableEq α] {l : List (α × β)} {key : α} {v : β} {p : α × β}
    (h : p ∈ setA l key v) : p = (key, v) ∨ p ∈ l := by
  induction l with
  | nil => simp [setA] at h; simp [h]
  | cons q rest ih =>
    obtain ⟨k, w⟩ := q
    by_cases hk : k = key
    · subst hk
      simp [setA] at h
      rcases h with h | h
      · left; simp [h]
      · right; exact List.mem_cons_of_mem _ h
    · simp [setA, hk] at h
      rcases h with h | h
      · right; simp [h]
      · rcases ih h with h' | h'
        · left; exact h'
        · right; exact List.mem_cons_of_mem _ h'

theorem eraseA_sublist {α β : Type} [DecidableEq α] (l : List (α × β)) (key : α) :
    (eraseA l key).Sublist l := by
  induction l with
  | nil => simp [eraseA]
  | cons q rest ih =>
    obtain ⟨k, w⟩ := q
    by_cases hk : k = key
    · simp [eraseA, hk]
    · simpa [eraseA, hk] using ih.cons₂ (k, w)

theorem map_fst_setA_of_mem {α β : Type} [DecidableEq α] {l : List (α × β)} {key : α} (v : β)
    (h : key ∈ l.map Prod.fst) : (setA l key v).map Prod.fst = l.map Prod.fst := by
  induction l with
  | nil => simp at h
  | cons q rest ih =>
    obtain ⟨k, w⟩ := q
    by_cases hk : k = key
    · simp [setA, hk]
    · have h' : key ∈ rest.map Prod.fst := by
        simp at h
        rcases h with h | h
        · exact absurd h.symm hk
        · simpa using h
      simp [setA, hk, ih h']

theorem map_fst_setA_of_not_mem {α β : Type} [DecidableEq α] {l : List (α × β)} {key : α} (v : β)
    (h : key ∉ l.map Prod.fst) :
    (setA l key v).map Prod.fst = l.map Prod.fst ++ [key] := by
  induction l with
  | nil => simp [setA]
  | cons q rest ih =>
    obtain ⟨k, w⟩ := q
    have hk : k ≠ key := by
      intro hk; exact h (by simp [hk])
    have h' : key ∉ rest.map Prod.fst := by
      intro hm; exact h (by simp [hm])
    simp [setA, hk, ih h']

theorem map_fst_eraseA {α β : Type} [DecidableEq α] (l : List (α × β)) (key : α) :
    (eraseA l key).map Prod.fst = removeOne (l.map Prod.fst) key := by
  induction l with
  | nil => simp [eraseA, removeOne]
  | cons q rest ih =>
    obtain ⟨k, w⟩ := q
    by_cases hk : k = key
    · simp [eraseA, removeOne, hk]
    · simp [eraseA, removeOne, hk, ih]

theorem lookupA_setA_self {α β : Type} [DecidableEq α] (l : List (α × β)) (key : α) (v : β) :
    lookupA (setA l key v) key = some v := by
  induction l with
  | nil => simp [setA, lookupA]
  | cons q rest ih =>
    obtain ⟨k, w⟩ := q
    by_cases hk : k = key
    · simp [setA, lookupA, hk]
    · simp [setA, lookupA, hk, ih]

theorem lookupA_setA_ne {α β : Type} [DecidableEq α] (l : List (α × β)) {key k' : α} (v : β)
    (h : k' ≠ key) : lookupA (setA l key v) k' = lookupA l k' := by
  induction l with
  | nil => simp [setA, lookupA, Ne.symm h]
  | cons q rest ih =>
    obtain ⟨k, w⟩ := q
    by_cases hk : k = key
    · subst hk
      simp [setA, lookupA, Ne.symm h]
    · simp [setA, lookupA, hk, ih]

/-! ### removeOne lemmas -/

theorem removeOne_sublist {α : Type} [DecidableEq α] (l : List α) (a : α) :
    (removeOne l a).Sublist l := by
  induction l with
  | nil => simp [removeOne]
  | cons x xs ih =>
    by_cases h : x = a
    · simp [removeOne, h]
    · simpa [removeOne, h] using ih.cons₂ x

theorem perm_cons_removeOne {α : Type} [DecidableEq α] {l : List α} {a : α}
    (h : a ∈ l) : l.Perm (a :: removeOne l a) := by
  induction l with
  | nil => simp at h
  | cons x xs ih =>
    by_cases hx : x = a
    · subst hx; simp [removeOne]
    · have h' : a ∈ xs := by
        rcases List.mem_cons.mp h with h | h
        · exact absurd h.symm hx
        · exact h
      have hrw : removeOne (x :: xs) a = x :: removeOne xs a := by
        simp [removeOne, hx]
      rw [hrw]
      exact ((ih h').cons x).trans (List.Perm.swap a x _)

theorem removeOne_of_not_mem {α : Type} [DecidableEq α] {l : List α} {a : α}
    (h : a ∉ l) : removeOne l a = l := by
  induction l with
  | nil => simp [removeOne]
  | cons x xs ih =>
    have hx : x ≠ a := fun hxa => h (by simp [hxa])
    have h' : a ∉ xs := fun hm => h (by simp [hm])
    simp [removeOne, hx, ih h']

theorem eraseIdx_eq_removeOne :
    ∀ (l : List ℚ) (i : ℕ), l.Nodup → i < l.length →
      l.eraseIdx i = removeOne l (l.getD i 0)
  | [], i, _, hi => by simp at hi
  | x :: xs, 0, _, _ => by simp [removeOne]
  | x :: xs, i + 1, hnd, hi => by
    have hlen : i < xs.length := by simpa using hi
    have hmem : xs.getD i 0 ∈ xs := by
      rw [List.getD_eq_getElem xs 0 hlen]; exact List.getElem_mem hlen
    have hx : x ≠ xs.getD i 0 := by
      intro hxa
      exact (List.nodup_cons.mp hnd).1 (hxa ▸ hmem)
    simp only [List.eraseIdx, List.getD_cons_succ, removeOne, if_neg hx]
    rw [eraseIdx_eq_removeOne xs i (List.nodup_cons.mp hnd).2 hlen]

/-! ### Binary-search correctness on sorted key arrays -/

theorem sorted_getD_mono {keys : List ℚ} (hs : keys.Pairwise (· < ·))
    {i j : ℕ} (hij : i ≤ j) (hj : j < keys.length) :
    keys.getD i 0 ≤ keys.getD j 0 := by
  rcases Nat.eq_or_lt_of_le hij with rfl | hlt
  · exact le_refl _
  · have hi : i < keys.length := lt_trans hlt hj
    rw [List.getD_eq_getElem keys 0 hi, List.getD_eq_getElem keys 0 hj]
    exact le_of_lt (List.pairwise_iff_getElem.mp hs i j hi hj hlt)

theorem upperBoundGo_spec {keys : List ℚ} (hs : keys.Pairwise (· < ·)) (target : ℚ)
    (fuel : ℕ) :
    ∀ left right : ℕ, left ≤ right → right ≤ keys.length → right - left < fuel →
      (∀ i, i < left → keys.getD i 0 ≤ target) →
      (∀ i, right ≤ i → i < keys.length → target < keys.getD i 0) →
      left ≤ upperBoundGo keys target fuel left right ∧
      upperBoundGo keys target fuel left right ≤ right ∧
      (∀ i, i < upperBoundGo keys target fuel left right → keys.getD i 0 ≤ target) ∧
      (∀ i, upperBoundGo keys target fuel left right ≤ i → i < keys.length →
        target < keys.getD i 0) := by
  induction fuel with
  | zero => intro left right _ _ hf _ _; omega
  | succ fuel ih =>
    intro left right hlr hrlen hf hlow hhigh
    by_cases hlt : left < right
    · simp only [upperBoundGo, if_pos hlt]
      by_cases hmid : keys.getD ((left + right) / 2) 0 ≤ target
      · rw [if_pos hmid]
        have hmidlt : (left + right) / 2 < right := by omega
        refine (ih ((left + right) / 2 + 1) right (by omega) hrlen (by omega) ?_ hhigh).imp
          (fun h => by omega) (fun h => h)
        intro i hi
        rcases Nat.lt_or_ge i left with h | h
        · exact hlow i h
        · exact le_trans
            (sorted_getD_mono hs (by omega) (lt_of_lt_of_le hmidlt hrlen)) hmid
      · rw [if_neg hmid]
        have hmidge : left ≤ (left + right) / 2 := by omega
        have hmidlt : (left + right) / 2 < right := by omega
        refine (ih left ((left + right) / 2) hmidge (by omega) (by omega) hlow ?_).imp
          (fun h => h) (fun h => ⟨by omega, h.2⟩)
        intro i hi hilen
        exact lt_of_lt_of_le (lt_of_not_le hmid) (sorted_getD_mono hs hi hilen)
    · simp only [upperBoundGo, if_neg hlt]
      have : left = right := by omega
      exact ⟨le_refl _, le_of_eq this, hlow, fun i hi => hhigh i (this ▸ hi)⟩

theorem upperBound_spec {keys : List ℚ} (hs : keys.Pairwise (· < ·)) (target : ℚ) :
    upperBound keys target ≤ keys.length ∧
    (∀ i, i < upperBound keys target → keys.getD i 0 ≤ target) ∧
    (∀ i, upperBound keys target ≤ i → i < keys.length → target < keys.getD i 0) := by
  have h := upperBoundGo_spec hs target (keys.length + 1) 0 keys.length
    (Nat.zero_le _) (le_refl _) (by omega) (fun i hi => absurd hi (Nat.not_lt_zero i))
    (fun i hi hilen => absurd hilen (by omega))
  exact ⟨h.2.1, h.2.2.1, h.2.2.2⟩

theorem binSearchGo_finds {keys : List ℚ} (hs : keys.Pairwise (· < ·)) {target : ℚ}
    (fuel : ℕ) :
    ∀ (left : ℕ) (right : ℤ) (j : ℕ), j < keys.length → keys.getD j 0 = target →
      left ≤ j → (j : ℤ) ≤ right → right < (keys.length : ℤ) →
      (right + 1 - left : ℤ) ≤ fuel →
      ∃ idx : ℕ, binSearchGo keys target fuel left right = (idx : ℤ) ∧
        idx < keys.length ∧ keys.getD idx 0 = target := by
  induction fuel with
  | zero => intro left right j _ _ hlj hjr _ hf; omega
  | succ fuel ih =>
    intro left right j hj hjt hlj hjr hrlen hf
    have hr0 : 0 ≤ right := le_trans (Int.ofNat_nonneg j) hjr
    have hcond : (left : ℤ) ≤ right := le_trans (by exact_mod_cast hlj) hjr
    have hrt : right.toNat < keys.length := by omega
    have hjrt : j ≤ right.toNat := by omega
    simp only [binSearchGo, if_pos hcond]
    by_cases heq : keys.getD ((left + right.toNat) / 2) 0 = target
    · rw [if_pos heq]
      exact ⟨(left + right.toNat) / 2, rfl, by omega, heq⟩
    · rw [if_neg heq]
      by_cases hltv : keys.getD ((left + right.toNat) / 2) 0 < target
      · rw [if_pos hltv]
        have hmj : (left + right.toNat) / 2 < j := by
          by_contra hcon
          exact absurd (hjt ▸ sorted_getD_mono hs (Nat.le_of_not_lt hcon) (by omega))
            (not_le_of_lt hltv)
        exact ih ((left + right.toNat) / 2 + 1) right j hj hjt (by omega) hjr hrlen
          (by omega)
      · rw [if_neg hltv]
        have hjm : j < (left + right.toNat) / 2 := by
          by_contra hcon
          have := sorted_getD_mono hs (Nat.le_of_not_lt hcon) hj
          rw [hjt] at this
          rcases lt_or_eq_of_le this with h | h
          · exact absurd h hltv
          · exact absurd h heq
        exact ih left ((((left + right.toNat) / 2 : ℕ) : ℤ) - 1) j hj hjt hlj
          (by omega) (by omega) (by omega)


theorem spliceIn_sorted_perm {keys : List ℚ} (hs : keys.Pairwise (· < ·)) {key : ℚ}
    (hnot : key ∉ keys) :
    (spliceIn keys (upperBound keys key) key).Pairwise (· < ·) ∧
    (spliceIn keys (upperBound keys key) key).Perm (key :: keys) := by
  obtain ⟨hle, hlow, hhigh⟩ := upperBound_spec hs key
  constructor
  · rw [spliceIn]
    refine List.pairwise_append.mpr
      ⟨hs.sublist (List.take_sublist _ keys), ?_, ?_⟩
    · rw [List.pairwise_cons]
      refine ⟨?_, hs.sublist (List.drop_sublist _ keys)⟩
      intro b hb
      obtain ⟨j, hj, rfl⟩ := List.mem_iff_getElem.mp hb
      rw [List.getElem_drop]
      have hrj : upperBound keys key + j < keys.length := by
        rw [List.length_drop] at hj; omega
      have h := hhigh (upperBound keys key + j) (Nat.le_add_right _ j) hrj
      rwa [List.getD_eq_getElem keys 0 hrj] at h
    · intro a ha b hb
      obtain ⟨i, hi, rfl⟩ := List.mem_iff_getElem.mp ha
      have hik : i < upperBound keys key := by
        rw [List.length_take] at hi; omega
      have hilen : i < keys.length := by
        rw [List.length_take] at hi; omega
      rw [List.getElem_take]
      have hale : keys[i] ≤ key := by
        have h := hlow i hik
        rwa [List.getD_eq_getElem keys 0 hilen] at h
      have haklt : keys[i] < key :=
        lt_of_le_of_ne hale (fun hc => hnot (hc ▸ List.getElem_mem hilen))
      rcases List.mem_cons.mp hb with rfl | hbd
      · exact haklt
      · obtain ⟨j, hj, rfl⟩ := List.mem_iff_getElem.mp hbd
        rw [List.getElem_drop]
        have hrj : upperBound keys key + j < keys.length := by
          rw [List.length_drop] at hj; omega
        have hkb := hhigh (upperBound keys key + j) (Nat.le_add_right _ j) hrj
        rw [List.getD_eq_getElem keys 0 hrj] at hkb
        exact lt_trans haklt hkb
  · rw [spliceIn]
    have h1 : (keys.take (upperBound keys key) ++
        key :: keys.drop (upperBound keys key)).Perm
        (key :: (keys.take (upperBound keys key) ++
          keys.drop (upperBound keys key))) :=
      List.perm_middle
    rwa [List.take_append_drop] at h1

theorem binSearch_finds {keys : List ℚ} (hs : keys.Pairwise (· < ·)) {key : ℚ}
    (hmem : key ∈ keys) :
    ∃ idx : ℕ, binSearch keys key = (idx : ℤ) ∧ idx < keys.length ∧
      keys.getD idx 0 = key := by
  obtain ⟨j, hj, hget⟩ := List.mem_iff_getElem.mp hmem
  have hgetd : keys.getD j 0 = key := by
    rw [List.getD_eq_getElem keys 0 hj]; exact hget
  exact binSearchGo_finds hs (keys.length + 1) 0 ((keys.length : ℤ) - 1) j hj hgetd
    (Nat.zero_le j) (by omega) (by omega) (by omega)

namespace SortedBucketMap

theorem mem_sortedKeys_iff {m : SortedBucketMap} (hm : m.Inv) {key : ℚ} :
    key ∈ m.sortedKeys ↔ m.hasKey key = true := by
  rw [hasKey, lookupA_isSome_iff]
  exact hm.2.mem_iff

theorem nodup_sortedKeys {m : SortedBucketMap} (hm : m.Inv) : m.sortedKeys.Nodup :=
  hm.1.imp (fun h => ne_of_lt h)

theorem inv_set {m : SortedBucketMap} (hm : m.Inv) (key : ℚ) (v : Bucket) :
    (m.set key v).Inv := by
  by_cases hk : m.hasKey key = true
  · have hmem : key ∈ m.pairs.map Prod.fst := (lookupA_isSome_iff _ _).mp hk
    simp only [set, hk, if_true]
    exact ⟨hm.1, by rw [map_fst_setA_of_mem v hmem]; exact hm.2⟩
  · have hnmemf : key ∉ m.pairs.map Prod.fst := fun hc =>
      hk ((lookupA_isSome_iff _ _).mpr hc)
    have hnmem : key ∉ m.sortedKeys := fun hc => hk ((mem_sortedKeys_iff hm).mp hc)
    have hred : m.set key v = ⟨setA m.pairs key v,
        spliceIn m.sortedKeys (upperBound m.sortedKeys key) key⟩ := by
      simp [set, hk]
    rw [hred]
    obtain ⟨hpw, hperm⟩ := spliceIn_sorted_perm hm.1 hnmem
    refine ⟨hpw, ?_⟩
    show (spliceIn m.sortedKeys (upperBound m.sortedKeys key) key).Perm
      ((setA m.pairs key v).map Prod.fst)
    rw [map_fst_setA_of_not_mem v hnmemf]
    exact (hperm.trans (hm.2.cons key)).trans (List.perm_append_singleton _ _).symm

theorem set_sortedKeys_of_mem {m : SortedBucketMap} {key : ℚ} (v : Bucket)
    (hk : m.hasKey key = true) : (m.set key v).sortedKeys = m.sortedKeys := by
  simp only [set, hk, if_true]

theorem set_sortedKeys_of_not_mem {m : SortedBucketMap} {key : ℚ} (v : Bucket)
    (hk : ¬m.hasKey key = true) :
    (m.set key v).sortedKeys =
      spliceIn m.sortedKeys (upperBound m.sortedKeys key) key := by
  simp [set, hk]

theorem length_spliceIn (l : List ℚ) {idx : ℕ} (a : ℚ) (h : idx ≤ l.length) :
    (spliceIn l idx a).length = l.length + 1 := by
  rw [spliceIn, List.length_append, List.length_cons, List.length_take,
    List.length_drop]
  omega

theorem delete_of_mem {m : SortedBucketMap} (hm : m.Inv) {key : ℚ}
    (hk : key ∈ m.sortedKeys) :
    (m.delete key).pairs = eraseA m.pairs key ∧
    (m.delete key).sortedKeys = removeOne m.sortedKeys key ∧ (m.delete key).Inv := by
  have hhk : m.hasKey key = true := (mem_sortedKeys_iff hm).mp hk
  obtain ⟨n, hbs, hnlen, hget⟩ := binSearch_finds hm.1 hk
  have hguard : binSearch m.sortedKeys key ≠ -1 ∧
      m.sortedKeys.getD (binSearch m.sortedKeys key).toNat 0 = key := by
    rw [hbs]
    exact ⟨by omega, by rw [Int.toNat_ofNat]; exact hget⟩
  have herase : m.sortedKeys.eraseIdx (binSearch m.sortedKeys key).toNat =
      removeOne m.sortedKeys key := by
    rw [hbs, Int.toNat_ofNat, ← hget]
    exact eraseIdx_eq_removeOne _ n (nodup_sortedKeys hm) hnlen
  have hred : m.delete key =
      ⟨eraseA m.pairs key, m.sortedKeys.eraseIdx (binSearch m.sortedKeys key).toNat⟩ := by
    simp only [delete, hhk, if_true]
    rw [if_pos hguard]
  have hinv : Inv ⟨eraseA m.pairs key, removeOne m.sortedKeys key⟩ := by
    constructor
    · exact hm.1.sublist (removeOne_sublist m.sortedKeys key)
    · show (removeOne m.sortedKeys key).Perm ((eraseA m.pairs key).map Prod.fst)
      rw [map_fst_eraseA]
      have hmemf : key ∈ m.pairs.map Prod.fst := hm.2.mem_iff.mp hk
      exact ((perm_cons_removeOne hk).symm.trans
        (hm.2.trans (perm_cons_removeOne hmemf))).cons_inv
  rw [hred, herase]
  exact ⟨rfl, rfl, hinv⟩

theorem delete_of_not_mem {m : SortedBucketMap} (hm : m.Inv) {key : ℚ}
    (hk : key ∉ m.sortedKeys) : m.delete key = m := by
  have hhk : ¬m.hasKey key = true := fun hc => hk ((mem_sortedKeys_iff hm).mpr hc)
  simp [delete, hhk]

theorem inv_delete {m : SortedBucketMap} (hm : m.Inv) (key : ℚ) :
    (m.delete key).Inv := by
  by_cases hk : key ∈ m.sortedKeys
  · exact (delete_of_mem hm hk).2.2
  · rw [delete_of_not_mem hm hk]; exact hm

theorem inv_deleteOldest {m : SortedBucketMap} (hm : m.Inv) (n : ℕ) :
    (m.deleteOldest n).Inv ∧ (m.deleteOldest n).sortedKeys = m.sortedKeys.drop n := by
  induction n generalizing m with
  | zero => exact ⟨hm, by simp [deleteOldest]⟩
  | succ n ih =>
    obtain ⟨pairs, sk⟩ := m
    cases sk with
    | nil => exact ⟨hm, by simp [deleteOldest]⟩
    | cons k rest =>
      have hkmem : k ∈ pairs.map Prod.fst := hm.2.mem_iff.mp (List.mem_cons_self k rest)
      have hinv : Inv ⟨eraseA pairs k, rest⟩ := by
        constructor
        · exact (List.pairwise_cons.mp hm.1).2
        · show rest.Perm ((eraseA pairs k).map Prod.fst)
          rw [map_fst_eraseA]
          exact ((hm.2.trans (perm_cons_removeOne hkmem)) :
            (k :: rest).Perm (k :: removeOne (pairs.map Prod.fst) k)).cons_inv
      obtain ⟨h1, h2⟩ := ih hinv
      exact ⟨h1, h2⟩

theorem inv_clear (m : SortedBucketMap) : (m.clear).Inv :=
  ⟨List.Pairwise.nil, List.Perm.refl _⟩

theorem inv_empty : (empty).Inv := ⟨List.Pairwise.nil, List.Perm.refl _⟩

theorem inv_size_eq {m : SortedBucketMap} (hm : m.Inv) :
    m.sortedKeys.length = m.size := by
  rw [size, ← List.length_map m.pairs Prod.fst]
  exact hm.2.length_eq

end SortedBucketMap

/-! ### Claim theorems -/

/-- C5 counterexample: at the first debounced count (defaults: threshold 3,
base 1000 ms) the code returns 1000 ms, while the claimed formula
`baseMs · 2^min(n − debounceThreshold + 1, 8)` would give 2000 ms. -/
theorem calculateCheckInterval_claim_false :
    calculateCheckInterval 1000 3 3 = 1000 ∧
    (1000 : ℚ) * 2 ^ min (3 - 3 + 1) 8 = 2000 ∧
    calculateCheckInterval 1000 3 3 ≠ (1000 : ℚ) * 2 ^ min (3 - 3 + 1) 8 := by
  refine ⟨by norm_num [calculateCheckInterval], by norm_num, ?_⟩
  norm_num [calculateCheckInterval]

/-- C5 (amended): the dynamic rate-limit interval equals `baseMs` below the
debounce threshold and `baseMs · 2^(min(n − debounceThreshold + 1, 8) − 1)`
(= `baseMs · 2^min(n − debounceThreshold, 7)`) at or above it. -/
theorem calculateCheckInterval_spec (baseMs : ℚ) (T n : ℕ) :
    (n < T → calculateCheckInterval baseMs T n = baseMs) ∧
    (T ≤ n → calculateCheckInterval baseMs T n = baseMs * 2 ^ min (n - T) 7) := by
  constructor
  · intro h
    simp [calculateCheckInterval, h]
  · intro h
    have hnlt : ¬n < T := not_lt.mpr h
    have hexp : min (n - T + 1) 8 - 1 = min (n - T) 7 := by omega
    simp only [calculateCheckInterval, if_neg hnlt, hexp]

/-- C5 witness: the amended formula evaluated at n = 2 (below threshold) and
n = 5 (above), with the defaults. -/
theorem calculateCheckInterval_spec_witness :
    calculateCheckInterval 1000 3 2 = 1000 ∧
    calculateCheckInterval 1000 3 5 = 1000 * 2 ^ min (5 - 3) 7 :=
  ⟨(calculateCheckInterval_spec 1000 3 2).1 (by norm_num),
   (calculateCheckInterval_spec 1000 3 5).2 (by norm_num)⟩

/-- C4: a chat message is sent for a firing only when its `Signal`, stamped
`prior_signals_in_24h + 1`, was persisted first (at a strictly earlier trace
position); if the persist fails, no chat message is sent. -/
theorem handleSignal_persist_before_send (c : ℕ) (symbol : String)
    (countOk saveOk : Bool) :
    (∀ n, SignalEvent.sendTelegram n symbol ∈ handleSignal c symbol countOk saveOk →
      saveOk = true ∧ n = c + 1 ∧
      ∃ i j : ℕ, i < j ∧
        (handleSignal c symbol countOk saveOk)[i]? =
          some (SignalEvent.persistSignal n symbol) ∧
        (handleSignal c symbol countOk saveOk)[j]? =
          some (SignalEvent.sendTelegram n symbol)) ∧
    (saveOk = false →
      ∀ n, SignalEvent.sendTelegram n symbol ∉ handleSignal c symbol countOk saveOk) := by
  cases countOk with
  | false =>
    constructor
    · intro n hn
      simp [handleSignal] at hn
    · intro _ n hn
      simp [handleSignal] at hn
  | true =>
    cases saveOk with
    | false =>
      constructor
      · intro n hn
        simp [handleSignal] at hn
      · intro _ n hn
        simp [handleSignal] at hn
    | true =>
      have htr : handleSignal c symbol true true =
          [SignalEvent.persistSignal (c + 1) symbol,
           SignalEvent.sendTelegram (c + 1) symbol] := by
        simp [handleSignal]
      constructor
      · intro n hn
        rw [htr] at hn
        simp at hn
        subst hn
        exact ⟨rfl, rfl, 0, 1, by omega, by simp [htr], by simp [htr]⟩
      · intro h
        simp at h

/-- C4 witness: a successful save at prior count 0 emits the persist of
signal number 1 strictly before the send. -/
theorem handleSignal_persist_before_send_witness :
    true = true ∧ 1 = 0 + 1 ∧
    ∃ i j : ℕ, i < j ∧
      (handleSignal 0 "BTCUSDT" true true)[i]? =
        some (SignalEvent.persistSignal 1 "BTCUSDT") ∧
      (handleSignal 0 "BTCUSDT" true true)[j]? =
        some (SignalEvent.sendTelegram 1 "BTCUSDT") :=
  (handleSignal_persist_before_send 0 "BTCUSDT" true true).1 1 (by decide)

/-- C10: the `SortedBucketMap` invariant — the sorted key array is strictly
ascending and carries exactly the keys of the hash map — is preserved by
`set`, `delete`, `deleteOldest` and `clear`, so `getSortedKeys` returns the
map's keys in ascending order without re-sorting. -/
theorem sortedBucketMap_invariant_ops (m : SortedBucketMap) (hm : m.Inv)
    (key : ℚ) (v : Bucket) (n : ℕ) :
    (m.set key v).Inv ∧ (m.delete key).Inv ∧ (m.deleteOldest n).Inv ∧
    (m.clear).Inv ∧
    m.getSortedKeys.Pairwise (· < ·) ∧
    m.getSortedKeys.Perm (m.pairs.map Prod.fst) :=
  ⟨SortedBucketMap.inv_set hm key v, SortedBucketMap.inv_delete hm key,
   (SortedBucketMap.inv_deleteOldest hm n).1, SortedBucketMap.inv_clear m,
   hm.1, hm.2⟩

/-- C10 witness: the invariant operations applied to a concrete two-entry
map. -/
theorem sortedBucketMap_invariant_ops_witness :
    ((⟨[(1, mkBucket ⟨1, none, none, none, none, none, none⟩ none none),
        (3, mkBucket ⟨3, none, none, none, none, none, none⟩ none none)],
       [1, 3]⟩ : SortedBucketMap).set 2
        (mkBucket ⟨2, none, none, none, none, none, none⟩ none none)).Inv ∧
    ((⟨[(1, mkBucket ⟨1, none, none, none, none, none, none⟩ none none),
        (3, mkBucket ⟨3, none, none, none, none, none, none⟩ none none)],
       [1, 3]⟩ : SortedBucketMap).delete 2).Inv ∧
    ((⟨[(1, mkBucket ⟨1, none, none, none, none, none, none⟩ none none),
        (3, mkBucket ⟨3, none, none, none, none, none, none⟩ none none)],
       [1, 3]⟩ : SortedBucketMap).deleteOldest 1).Inv ∧
    ((⟨[(1, mkBucket ⟨1, none, none, none, none, none, none⟩ none none),
        (3, mkBucket ⟨3, none, none, none, none, none, none⟩ none none)],
       [1, 3]⟩ : SortedBucketMap).clear).Inv ∧
    ([1, 3] : List ℚ).Pairwise (· < ·) ∧
    ([1, 3] : List ℚ).Perm ([1, 3] : List ℚ) := by
  have h := sortedBucketMap_invariant_ops
    ⟨[(1, mkBucket ⟨1, none, none, none, none, none, none⟩ none none),
      (3, mkBucket ⟨3, none, none, none, none, none, none⟩ none none)],
     [1, 3]⟩
    ⟨by decide, by decide⟩ 2 (mkBucket ⟨2, none, none, none, none, none, none⟩ none none) 1
  exact h


theorem emitsFor_cons (st : NotifState) (e : NotifEvent) (rest : List NotifEvent)
    (key : NotifKey) :
    emitsFor st (e :: rest) key =
      if (processTriggerStep st e).1 = true ∧ ((e.userId, e.symbol) : NotifKey) = key
      then e.now :: emitsFor (processTriggerStep st e).2 rest key
      else emitsFor (processTriggerStep st e).2 rest key := by
  by_cases h1 : (processTriggerStep st e).1 = true
  · by_cases h2 : ((e.userId, e.symbol) : NotifKey) = key
    · simp [emitsFor, runNotifications, h1, h2]
    · simp [emitsFor, runNotifications, h1, h2]
  · simp [emitsFor, runNotifications, h1]

theorem runNotifications_spec (key : NotifKey) (L : ℚ) (hL : 0 < L)
    (events : List NotifEvent) :
    ∀ st : NotifState,
      (∀ e ∈ events, ((e.userId, e.symbol) : NotifKey) = key → e.limitSeconds = L) →
      (∀ e ∈ events, 0 < e.now) →
      (∀ t0, lookupA st key = some t0 → 0 < t0) →
      (emitsFor st events key).Pairwise (fun a b => a + L * 1000 ≤ b) ∧
      (∀ t0, lookupA st key = some t0 →
        ∀ s ∈ emitsFor st events key, t0 + L * 1000 ≤ s) := by
  induction events with
  | nil =>
    intro st _ _ _
    constructor
    · simp [emitsFor, runNotifications]
    · intro t0 _ s hs
      simp [emitsFor, runNotifications] at hs
  | cons e rest ih =>
    intro st hkey hpos hst
    have hkey' : ∀ e' ∈ rest, ((e'.userId, e'.symbol) : NotifKey) = key →
        e'.limitSeconds = L := fun e' he' => hkey e' (List.mem_cons_of_mem e he')
    have hpos' : ∀ e' ∈ rest, 0 < e'.now :=
      fun e' he' => hpos e' (List.mem_cons_of_mem e he')
    have hposE : 0 < e.now := hpos e (List.mem_cons_self e rest)
    by_cases hk : ((e.userId, e.symbol) : NotifKey) = key
    · have hlimit : e.limitSeconds = L := hkey e (List.mem_cons_self e rest) hk
      have hself : lookupA (setA st ((e.userId, e.symbol) : NotifKey) e.now) key =
          some e.now := by
        rw [← hk]
        exact lookupA_setA_self st _ e.now
      have hst' : ∀ t1, lookupA (setA st ((e.userId, e.symbol) : NotifKey) e.now)
          key = some t1 → 0 < t1 := by
        intro t1 h
        rw [hself] at h
        obtain rfl := Option.some.inj h
        exact hposE
      rcases hlk : lookupA st ((e.userId, e.symbol) : NotifKey) with _ | t0
      · -- no cooldown recorded: the event fires and records its time
        have hlkk : lookupA st key = none := by rw [← hk]; exact hlk
        have hr : processTriggerStep st e =
            (true, setA st ((e.userId, e.symbol) : NotifKey) e.now) := by
          simp [processTriggerStep, hlk]
        obtain ⟨hpw, hbd⟩ := ih (setA st ((e.userId, e.symbol) : NotifKey) e.now)
          hkey' hpos' hst'
        have hcons : emitsFor st (e :: rest) key =
            e.now :: emitsFor (setA st ((e.userId, e.symbol) : NotifKey) e.now)
              rest key := by
          rw [emitsFor_cons, hr, if_pos ⟨rfl, hk⟩]
        rw [hcons]
        refine ⟨List.pairwise_cons.mpr ⟨hbd e.now hself, hpw⟩, ?_⟩
        intro t0 h
        rw [hlkk] at h
        cases h
      · have hlkk : lookupA st key = some t0 := by rw [← hk]; exact hlk
        have ht0pos : 0 < t0 := hst t0 hlkk
        by_cases hsup : t0 ≠ 0 ∧ e.now - t0 < e.limitSeconds * 1000
        · -- cooldown active: suppressed, state unchanged
          have hr : processTriggerStep st e = (false, st) := by
            simp only [processTriggerStep, hlk]
            rw [if_pos hsup]
          obtain ⟨hpw, hbd⟩ := ih st hkey' hpos' hst
          have hcons : emitsFor st (e :: rest) key = emitsFor st rest key := by
            rw [emitsFor_cons, hr, if_neg (by simp)]
          rw [hcons]
          exact ⟨hpw, hbd⟩
        · -- cooldown satisfied: fires and records the new time
          have hr : processTriggerStep st e =
              (true, setA st ((e.userId, e.symbol) : NotifKey) e.now) := by
            simp only [processTriggerStep, hlk]
            rw [if_neg hsup]
          have hgap : t0 + L * 1000 ≤ e.now := by
            rcases not_and_or.mp hsup with h | h
            · exact absurd (ne_of_gt ht0pos) h
            · have h2 := not_lt.mp h
              rw [hlimit] at h2
              linarith
          obtain ⟨hpw, hbd⟩ := ih (setA st ((e.userId, e.symbol) : NotifKey) e.now)
            hkey' hpos' hst'
          have hcons : emitsFor st (e :: rest) key =
              e.now :: emitsFor (setA st ((e.userId, e.symbol) : NotifKey) e.now)
                rest key := by
            rw [emitsFor_cons, hr, if_pos ⟨rfl, hk⟩]
          rw [hcons]
          have hnow := hbd e.now hself
          refine ⟨List.pairwise_cons.mpr ⟨hnow, hpw⟩, ?_⟩
          intro t1 h
          rw [hlkk] at h
          obtain rfl := Option.some.inj h
          intro s hs
          rcases List.mem_cons.mp hs with rfl | hs'
          · exact hgap
          · have h1 := hnow s hs'
            have hc : (0 : ℚ) ≤ L * 1000 := by positivity
            linarith
    · -- an event for a different key never touches this key's entry
      have hne : key ≠ ((e.userId, e.symbol) : NotifKey) := fun hc => hk hc.symm
      have hpres : lookupA (processTriggerStep st e).2 key = lookupA st key := by
        rcases hlk : lookupA st ((e.userId, e.symbol) : NotifKey) with _ | t0
        · simp only [processTriggerStep, hlk]
          exact lookupA_setA_ne st e.now hne
        · by_cases hsup : t0 ≠ 0 ∧ e.now - t0 < e.limitSeconds * 1000
          · simp only [processTriggerStep, hlk]
            rw [if_pos hsup]
          · simp only [processTriggerStep, hlk]
            rw [if_neg hsup]
            exact lookupA_setA_ne st e.now hne
      obtain ⟨hpw, hbd⟩ := ih (processTriggerStep st e).2 hkey' hpos'
        (by intro t0 h; rw [hpres] at h; exact hst t0 h)
      have hcons : emitsFor st (e :: rest) key =
          emitsFor (processTriggerStep st e).2 rest key := by
        rw [emitsFor_cons, if_neg (by simp [hk])]
      rw [hcons]
      refine ⟨hpw, ?_⟩
      intro t0 h
      rw [← hpres] at h
      exact hbd t0 h

/-- C3: for a trigger with `notificationLimitSeconds = L ≥ 10`, any two
notifications the NotificationService emits for the same (userId, symbol)
key are at least `L` seconds (`L * 1000` ms) apart: a fire inside the
cooldown window is suppressed and produces no notification.  Event times
are positive (wall-clock ms) and every event for the key carries the
trigger's limit. -/
theorem notification_cooldown_spacing (key : NotifKey) (L : ℚ)
    (events : List NotifEvent) (st : NotifState)
    (hL : 10 ≤ L)
    (hkey : ∀ e ∈ events, ((e.userId, e.symbol) : NotifKey) = key →
      e.limitSeconds = L)
    (hpos : ∀ e ∈ events, 0 < e.now)
    (hst : ∀ t0, lookupA st key = some t0 → 0 < t0) :
    (emitsFor st events key).Pairwise (fun a b => a + L * 1000 ≤ b) :=
  (runNotifications_spec key L (by linarith) events st hkey hpos hst).1

/-- C3 witness: three fires at 1 s, 6 s and 12 s under a 10 s cooldown; the
pairwise spacing bound holds for the emitted times (the 6 s fire is
suppressed). -/
theorem notification_cooldown_spacing_witness :
    (emitsFor [] [⟨7, "BTCUSDT", 10, 1000⟩, ⟨7, "BTCUSDT", 10, 6000⟩,
        ⟨7, "BTCUSDT", 10, 12000⟩] ((7, "BTCUSDT") : NotifKey)).Pairwise
      (fun a b => a + 10 * 1000 ≤ b) :=
  notification_cooldown_spacing ((7, "BTCUSDT") : NotifKey) 10 _ []
    (by norm_num)
    (by intro e he _; simp at he; rcases he with rfl | rfl | rfl <;> rfl)
    (by intro e he; simp at he; rcases he with rfl | rfl | rfl <;> norm_num)
    (by intro t0 h; simp [lookupA] at h)

theorem dropLow_aux (st : MQState) :
    (dropLowPriorityMessages st).recentSignals = st.recentSignals ∧
    (dropLowPriorityMessages st).statsDeduplicated = st.statsDeduplicated := by
  obtain ⟨qh, qn, ql, rs, sd, sdr⟩ := st
  cases ql <;> cases qn <;> simp [dropLowPriorityMessages]

theorem pushMsg_aux (st : MQState) (msg : QueuedMessage) :
    (pushMsg st msg).recentSignals = st.recentSignals ∧
    (pushMsg st msg).statsDeduplicated = st.statsDeduplicated := by
  obtain ⟨c, m, pr, s, t, r⟩ := msg
  cases pr <;> simp [pushMsg]

/-- An accepted enqueue with a signal: returns true, records the dedup key
at the enqueue time, and leaves the dedup counter unchanged. -/
theorem enqueue_accepted (st : MQState) (cid : ℤ) (msg : String)
    (s : SignalLite) (now : ℚ)
    (hdup : isDuplicate st cid s now = false) :
    (enqueue st cid msg (some s) now).1 = true ∧
    (enqueue st cid msg (some s) now).2.recentSignals =
      setA st.recentSignals (getDedupKey cid s) now ∧
    (enqueue st cid msg (some s) now).2.statsDeduplicated =
      st.statsDeduplicated := by
  simp only [enqueue, hdup]
  set st1 := if 1000 ≤ getTotalQueueSize st then dropLowPriorityMessages st else st
    with hst1
  have h1 : st1.recentSignals = st.recentSignals ∧
      st1.statsDeduplicated = st.statsDeduplicated := by
    rw [hst1]
    split
    · exact dropLow_aux st
    · exact ⟨rfl, rfl⟩
  have h2 := pushMsg_aux st1
    { chatId := cid, message := msg, priority := calculatePriority (some s),
      signal := some s, timestamp := now, retryCount := 0 }
  simp only [Bool.false_eq_true, if_false]
  refine ⟨by simp, ?_, ?_⟩
  · simp only [h2.1, h1.1]
  · simp only [h2.2, h1.2]

/-- A duplicate enqueue: returns false, counts a dedup, changes nothing
else. -/
theorem enqueue_rejected (st : MQState) (cid : ℤ) (msg : String)
    (s : SignalLite) (now : ℚ)
    (hdup : isDuplicate st cid s now = true) :
    enqueue st cid msg (some s) now =
      (false, { st with statsDeduplicated := st.statsDeduplicated + 1 }) := by
  simp [enqueue, hdup]

/-- After the first accepted enqueue, every same-key enqueue within the 5 s
window is rejected and only the dedup counter moves. -/
theorem runEnqueues_dups (K : DedupKey) (t1 : ℚ) (ht1 : t1 ≠ 0)
    (events : List (ℤ × String × Option SignalLite × ℚ)) :
    ∀ st : MQState,
      lookupA st.recentSignals K = some t1 →
      (∀ ev ∈ events, ∃ s : SignalLite, ev.2.2.1 = some s ∧
        getDedupKey ev.1 s = K ∧ ev.2.2.2 - t1 < 5000) →
      (runEnqueues st events).1 = List.replicate events.length false ∧
      (runEnqueues st events).2.statsDeduplicated =
        st.statsDeduplicated + events.length := by
  induction events with
  | nil => intro st _ _; simp [runEnqueues]
  | cons ev rest ih =>
    intro st hlk hall
    obtain ⟨cid, msg, sig, now⟩ := ev
    obtain ⟨s, hs, hkey, hwin⟩ := hall _ (List.mem_cons_self _ rest)
    simp only at hs
    subst hs
    have hdup : isDuplicate st cid s now = true := by
      simp only [isDuplicate, hkey, hlk]
      rw [if_neg ht1]
      exact decide_eq_true (by simpa using hwin)
    have hrej := enqueue_rejected st cid msg s now hdup
    have hrest := ih { st with statsDeduplicated := st.statsDeduplicated + 1 }
      hlk (fun ev' hev' => hall ev' (List.mem_cons_of_mem _ hev'))
    simp only [runEnqueues, hrej]
    refine ⟨?_, ?_⟩
    · simp [hrest.1, List.replicate_succ]
    · rw [hrest.2]
      simp only [List.length_cons]
      omega

/-- C6: n same-dedup-key enqueues within the 5 s window, on a state where
the key is fresh, queue exactly one message: the first is accepted and each
subsequent one is dropped and counted as deduplicated. -/
theorem enqueue_dedup_idempotent (st : MQState) (K : DedupKey)
    (cid0 : ℤ) (m0 : String) (s0 : SignalLite) (t1 : ℚ)
    (rest : List (ℤ × String × Option SignalLite × ℚ))
    (hfresh : lookupA st.recentSignals K = none)
    (hk0 : getDedupKey cid0 s0 = K)
    (ht1 : 0 < t1)
    (hrest : ∀ ev ∈ rest, ∃ s : SignalLite, ev.2.2.1 = some s ∧
      getDedupKey ev.1 s = K ∧ ev.2.2.2 - t1 < 5000) :
    (runEnqueues st ((cid0, m0, some s0, t1) :: rest)).1 =
      true :: List.replicate rest.length false ∧
    (runEnqueues st ((cid0, m0, some s0, t1) :: rest)).2.statsDeduplicated =
      st.statsDeduplicated + rest.length := by
  have hdup : isDuplicate st cid0 s0 t1 = false := by
    simp [isDuplicate, hk0, hfresh]
  obtain ⟨hacc, hrs, hsd⟩ := enqueue_accepted st cid0 m0 s0 t1 hdup
  have hlk1 : lookupA (enqueue st cid0 m0 (some s0) t1).2.recentSignals K =
      some t1 := by
    rw [hrs, ← hk0]
    exact lookupA_setA_self st.recentSignals (getDedupKey cid0 s0) t1
  have hrest' := runEnqueues_dups K t1 (ne_of_gt ht1) rest
    (enqueue st cid0 m0 (some s0) t1).2 hlk1 hrest
  simp only [runEnqueues, hacc]
  exact ⟨by rw [hrest'.1], by rw [hrest'.2, hsd]⟩

/-- C6 witness: two enqueues of a 5.0 % signal for the same chat and symbol
1 s apart; the first is queued, the second deduplicated. -/
theorem enqueue_dedup_idempotent_witness :
    (runEnqueues ⟨[], [], [], [], 0, 0⟩
      [(1, "msg1", some ⟨"XUSDT", 5⟩, 1000), (1, "msg2", some ⟨"XUSDT", 5⟩, 2000)]).1 =
      true :: List.replicate 1 false ∧
    (runEnqueues ⟨[], [], [], [], 0, 0⟩
      [(1, "msg1", some ⟨"XUSDT", 5⟩, 1000), (1, "msg2", some ⟨"XUSDT", 5⟩, 2000)]).2.statsDeduplicated =
      0 + 1 := by
  have h := enqueue_dedup_idempotent ⟨[], [], [], [], 0, 0⟩
    (getDedupKey 1 ⟨"XUSDT", 5⟩) 1 "msg1" ⟨"XUSDT", 5⟩ 1000
    [(1, "msg2", some ⟨"XUSDT", 5⟩, 2000)]
    (by simp [lookupA]) rfl (by norm_num)
    (by
      intro ev hev
      simp only [List.mem_singleton] at hev
      subst hev
      exact ⟨⟨"XUSDT", 5⟩, rfl, rfl, by norm_num⟩)
  simpa using h

theorem size_recent_set (st : MQState) (x : List (DedupKey × ℚ)) :
    getTotalQueueSize { st with recentSignals := x } = getTotalQueueSize st := rfl

theorem size_pushMsg (st : MQState) (msg : QueuedMessage) :
    getTotalQueueSize (pushMsg st msg) = getTotalQueueSize st + 1 := by
  obtain ⟨c, m, pr, s, t, r⟩ := msg
  cases pr <;> simp [pushMsg, getTotalQueueSize] <;> omega

theorem size_dropLow_nonempty (st : MQState)
    (h : st.qLow ≠ [] ∨ st.qNormal ≠ []) :
    getTotalQueueSize (dropLowPriorityMessages st) + 1 = getTotalQueueSize st := by
  obtain ⟨qh, qn, ql, rs, sd, sdr⟩ := st
  cases ql with
  | cons x rest => simp [dropLowPriorityMessages, getTotalQueueSize]; omega
  | nil =>
    cases qn with
    | cons y rest => simp [dropLowPriorityMessages, getTotalQueueSize]; omega
    | nil => simp at h

theorem enqueue_size_accepted (st : MQState) (cid : ℤ) (m : String)
    (sig : Option SignalLite) (now : ℚ)
    (hdup : (match sig with
      | some s => isDuplicate st cid s now
      | none => false) = false) :
    getTotalQueueSize (enqueue st cid m sig now).2 =
      getTotalQueueSize
        (if 1000 ≤ getTotalQueueSize st then dropLowPriorityMessages st else st) + 1 := by
  rcases sig with _ | s
  · simp only [enqueue]
    rw [if_neg (by simp)]
    rw [size_pushMsg]
  · simp only at hdup
    simp only [enqueue, hdup]
    rw [if_neg (by simp)]
    rw [size_recent_set, size_pushMsg]

/-- C8 (amended): an enqueue keeps the total queue depth at or below 1,000
provided that, when the cap is reached, a LOW or NORMAL message is queued;
at the cap one message is dropped, the oldest LOW first, else the oldest
NORMAL.  (With only HIGH messages queued nothing is dropped and the cap can
be exceeded — see the counterexample.) -/
theorem mq_backpressure (st : MQState) (cid : ℤ) (m : String)
    (sig : Option SignalLite) (now : ℚ) :
    (getTotalQueueSize st ≤ 1000 →
      (st.qLow ≠ [] ∨ st.qNormal ≠ [] ∨ getTotalQueueSize st < 1000) →
      getTotalQueueSize (enqueue st cid m sig now).2 ≤ 1000) ∧
    (∀ x rest, st.qLow = x :: rest →
      dropLowPriorityMessages st =
        { st with qLow := rest, statsDropped := st.statsDropped + 1 }) ∧
    (∀ y rest, st.qLow = [] → st.qNormal = y :: rest →
      dropLowPriorityMessages st =
        { st with qNormal := rest, statsDropped := st.statsDropped + 1 }) := by
  refine ⟨?_, ?_, ?_⟩
  · intro hle hcond
    by_cases hdup : (match sig with
        | some s => isDuplicate st cid s now
        | none => false) = true
    · rcases sig with _ | s
      · simp at hdup
      · simp only at hdup
        rw [enqueue_rejected st cid m s now hdup]
        simpa [getTotalQueueSize] using hle
    · have hdupf := Bool.not_eq_true _ ▸ hdup
      rw [enqueue_size_accepted st cid m sig now (Bool.eq_false_iff.mpr hdup)]
      by_cases hcap : 1000 ≤ getTotalQueueSize st
      · have h1000 : getTotalQueueSize st = 1000 := le_antisymm hle hcap
        have hne : st.qLow ≠ [] ∨ st.qNormal ≠ [] := by
          rcases hcond with h | h | h
          · exact Or.inl h
          · exact Or.inr h
          · omega
        rw [if_pos hcap]
        have := size_dropLow_nonempty st hne
        omega
      · rw [if_neg hcap]
        omega
  · intro x rest hql
    obtain ⟨qh, qn, ql, rs, sd, sdr⟩ := st
    simp only at hql
    subst hql
    simp [dropLowPriorityMessages]
  · intro y rest hql hqn
    obtain ⟨qh, qn, ql, rs, sd, sdr⟩ := st
    simp only at hql hqn
    subst hql
    subst hqn
    simp [dropLowPriorityMessages]

/-- C8 witness: an enqueue into a one-LOW-message queue stays within the
cap, and the drop rules evaluated on concrete LOW/NORMAL queues. -/
theorem mq_backpressure_witness :
    getTotalQueueSize
      (enqueue ⟨[], [], [⟨1, "a", MessagePriority.low, none, 0, 0⟩], [], 0, 0⟩
        2 "m" none 5).2 ≤ 1000 ∧
    dropLowPriorityMessages
        ⟨[], [], [⟨1, "a", MessagePriority.low, none, 0, 0⟩], [], 0, 0⟩ =
      ⟨[], [], [], [], 0, 1⟩ ∧
    dropLowPriorityMessages
        ⟨[], [⟨1, "b", MessagePriority.normal, none, 0, 0⟩], [], [], 0, 0⟩ =
      ⟨[], [], [], [], 0, 1⟩ := by
  refine ⟨?_, ?_, ?_⟩
  · exact (mq_backpressure ⟨[], [], [⟨1, "a", MessagePriority.low, none, 0, 0⟩],
      [], 0, 0⟩ 2 "m" none 5).1 (by decide) (Or.inl (by decide))
  · exact (mq_backpressure ⟨[], [], [⟨1, "a", MessagePriority.low, none, 0, 0⟩],
      [], 0, 0⟩ 2 "m" none 5).2.1 _ _ rfl
  · exact (mq_backpressure ⟨[], [⟨1, "b", MessagePriority.normal, none, 0, 0⟩],
      [], [], 0, 0⟩ 2 "m" none 5).2.2 _ _ rfl rfl

theorem highEvents_grow (n : ℕ) :
    ∀ (base : ℤ) (st : MQState), st.qNormal = [] → st.qLow = [] →
      (∀ i : ℤ, base ≤ i →
        lookupA st.recentSignals ((i, "XUSDT", (10 : ℚ)) : DedupKey) = none) →
      (runEnqueues st (highEvents base n)).2.qHigh.length = st.qHigh.length + n ∧
      (runEnqueues st (highEvents base n)).2.qNormal = [] ∧
      (runEnqueues st (highEvents base n)).2.qLow = [] := by
  induction n with
  | zero => intro base st h1 h2 _; simp [highEvents, runEnqueues, h1, h2]
  | succ n ih =>
    intro base st hqn hql hfresh
    have hkey : getDedupKey base ⟨"XUSDT", 10⟩ = ((base, "XUSDT", (10 : ℚ)) : DedupKey) := by
      simp [getDedupKey, jsRound, ratDiv_eq, Rat.mkRat_eq_divInt, Rat.divInt_eq_div]
      norm_num
    have hdup : isDuplicate st base ⟨"XUSDT", 10⟩ 1 = false := by
      simp only [isDuplicate, hkey]
      rw [hfresh base (le_refl base)]
    have hpr : calculatePriority (some ⟨"XUSDT", 10⟩) = MessagePriority.high := by
      simp [calculatePriority]
    -- the enqueue state: drop is a no-op (both droppable queues empty), the
    -- message lands at the tail of HIGH
    have hdl : dropLowPriorityMessages st = st := by
      obtain ⟨qh, qn, ql, rs, sd, sdr⟩ := st
      simp only at hqn hql
      subst hqn
      subst hql
      simp [dropLowPriorityMessages]
    have hstep : (enqueue st base "m" (some ⟨"XUSDT", 10⟩) 1).1 = true ∧
        (enqueue st base "m" (some ⟨"XUSDT", 10⟩) 1).2 =
          { st with
            qHigh := st.qHigh ++ [⟨base, "m", MessagePriority.high,
              some ⟨"XUSDT", 10⟩, 1, 0⟩],
            recentSignals :=
              setA st.recentSignals ((base, "XUSDT", (10 : ℚ)) : DedupKey) 1 } := by
      constructor
      · simp only [enqueue, hdup]
        simp
      · simp only [enqueue, hdup]
        rw [if_neg (by simp)]
        have hcap : (if 1000 ≤ getTotalQueueSize st then dropLowPriorityMessages st
            else st) = st := by
          split
          · exact hdl
          · rfl
        rw [hcap, hpr, hkey]
        obtain ⟨qh, qn, ql, rs, sd, sdr⟩ := st
        simp [pushMsg]
    obtain ⟨hacc, hstE⟩ := hstep
    have hqn' : (enqueue st base "m" (some ⟨"XUSDT", 10⟩) 1).2.qNormal = [] := by
      rw [hstE]; exact hqn
    have hql' : (enqueue st base "m" (some ⟨"XUSDT", 10⟩) 1).2.qLow = [] := by
      rw [hstE]; exact hql
    have hfresh' : ∀ i : ℤ, base + 1 ≤ i →
        lookupA (enqueue st base "m" (some ⟨"XUSDT", 10⟩) 1).2.recentSignals
          ((i, "XUSDT", (10 : ℚ)) : DedupKey) = none := by
      intro i hi
      rw [hstE]
      show lookupA (setA st.recentSignals ((base, "XUSDT", (10 : ℚ)) : DedupKey) 1)
        ((i, "XUSDT", (10 : ℚ)) : DedupKey) = none
      rw [lookupA_setA_ne st.recentSignals 1 (by
        intro hc
        have : i = base := congrArg Prod.fst hc
        omega)]
      exact hfresh i (by omega)
    have hrest := ih (base + 1) (enqueue st base "m" (some ⟨"XUSDT", 10⟩) 1).2
      hqn' hql' hfresh'
    have hhigh' : (enqueue st base "m" (some ⟨"XUSDT", 10⟩) 1).2.qHigh.length =
        st.qHigh.length + 1 := by
      rw [hstE]
      simp
    refine ⟨?_, ?_, ?_⟩
    · show (runEnqueues st ((base, "m", some ⟨"XUSDT", 10⟩, (1:ℚ)) ::
        highEvents (base + 1) n)).2.qHigh.length = st.qHigh.length + (n + 1)
      simp only [runEnqueues]
      rw [hrest.1, hhigh']
      omega
    · show (runEnqueues st ((base, "m", some ⟨"XUSDT", 10⟩, (1:ℚ)) ::
        highEvents (base + 1) n)).2.qNormal = []
      simp only [runEnqueues]
      exact hrest.2.1
    · show (runEnqueues st ((base, "m", some ⟨"XUSDT", 10⟩, (1:ℚ)) ::
        highEvents (base + 1) n)).2.qLow = []
      simp only [runEnqueues]
      exact hrest.2.2


/-- C8 counterexample: 1,001 HIGH-priority enqueues with distinct dedup keys
leave 1,001 messages queued — at the cap with no LOW or NORMAL message,
`dropLowPriorityMessages` removes nothing, so the 1,000-message bound of
the claim is exceeded. -/
theorem queue_cap_claim_false :
    1000 < getTotalQueueSize
      (runEnqueues ⟨[], [], [], [], 0, 0⟩ (highEvents 0 1001)).2 := by
  have h := highEvents_grow 1001 0 ⟨[], [], [], [], 0, 0⟩ rfl rfl
    (by intro i _; simp [lookupA])
  have hhigh : 1000 <
      (runEnqueues ⟨[], [], [], [], 0, 0⟩ (highEvents 0 1001)).2.qHigh.length := by
    rw [h.1]
    norm_num
  have hle : ∀ st : MQState, st.qHigh.length ≤ getTotalQueueSize st := by
    intro st
    unfold getTotalQueueSize
    omega
  exact lt_of_lt_of_le hhigh (hle _)


theorem enforceLimit_eq (m : SortedBucketMap) (bs : ℚ) :
    enforceLimit m bs =
      if m.sortedKeys.length ≤ limitFor bs then m
      else elGo m 0 (m.sortedKeys.length - limitFor bs) := rfl

theorem enforceLimit_of_le {m : SortedBucketMap} {bs : ℚ}
    (h : m.sortedKeys.length ≤ limitFor bs) : enforceLimit m bs = m := by
  rw [enforceLimit_eq, if_pos h]

theorem elGo_one {pairs : List (ℚ × Bucket)} {k : ℚ} {rest : List ℚ} :
    elGo ⟨pairs, k :: rest⟩ 0 1 =
      SortedBucketMap.delete ⟨pairs, k :: rest⟩ k := by
  show elGo ⟨pairs, k :: rest⟩ 0 (0 + 1) = SortedBucketMap.delete ⟨pairs, k :: rest⟩ k
  rw [elGo]
  simp [elGo]

theorem enforceLimit_succ {m : SortedBucketMap} (hm : m.Inv) {bs : ℚ}
    (h : m.sortedKeys.length = limitFor bs + 1) :
    (enforceLimit m bs).sortedKeys = m.sortedKeys.drop 1 ∧
    (enforceLimit m bs).Inv := by
  obtain ⟨pairs, sk⟩ := m
  cases sk with
  | nil => simp at h
  | cons k rest =>
    have hmem : k ∈ (⟨pairs, k :: rest⟩ : SortedBucketMap).sortedKeys :=
      List.mem_cons_self k rest
    obtain ⟨_, hskdel, hinvdel⟩ := SortedBucketMap.delete_of_mem hm hmem
    have hstep : (⟨pairs, k :: rest⟩ : SortedBucketMap).sortedKeys.length -
        limitFor bs = 1 := by
      simp only [List.length_cons] at h ⊢
      omega
    have hneg : ¬ (⟨pairs, k :: rest⟩ : SortedBucketMap).sortedKeys.length ≤
        limitFor bs := by
      simp only [List.length_cons] at h ⊢
      omega
    constructor
    · rw [enforceLimit_eq, if_neg hneg, hstep, elGo_one, hskdel]
      simp [removeOne]
    · rw [enforceLimit_eq, if_neg hneg, hstep, elGo_one]
      exact hinvdel

theorem updateBucketMap_bounded {m : SortedBucketMap} (hm : m.Inv) {bs : ℚ}
    (hlen : m.sortedKeys.length ≤ limitFor bs) (ooo : ℕ) (p : Payload)
    (lp loi : Option ℚ) :
    (updateBucketMap m ooo p lp loi bs).1.Inv ∧
    (updateBucketMap m ooo p lp loi bs).1.sortedKeys.length ≤ limitFor bs := by
  have hmain : ∀ (key : ℚ) (b : Bucket),
      (enforceLimit (m.set key b) bs).Inv ∧
      (enforceLimit (m.set key b) bs).sortedKeys.length ≤ limitFor bs := by
    intro key b
    have hinv1 : (m.set key b).Inv := SortedBucketMap.inv_set hm key b
    have hlen1 : (m.set key b).sortedKeys.length ≤ m.sortedKeys.length + 1 := by
      by_cases hk : m.hasKey key = true
      · rw [SortedBucketMap.set_sortedKeys_of_mem b hk]; omega
      · rw [SortedBucketMap.set_sortedKeys_of_not_mem b hk,
          SortedBucketMap.length_spliceIn m.sortedKeys key
            (upperBound_spec hm.1 key).1]
    by_cases hle : (m.set key b).sortedKeys.length ≤ limitFor bs
    · rw [enforceLimit_of_le hle]
      exact ⟨hinv1, hle⟩
    · have heq : (m.set key b).sortedKeys.length = limitFor bs + 1 := by omega
      obtain ⟨hdrop, hinv2⟩ := enforceLimit_succ hinv1 heq
      refine ⟨hinv2, ?_⟩
      rw [hdrop, List.length_drop]
      omega
  exact hmain _ _

theorem foldUpdates_bounded (bs : ℚ)
    (upds : List (Payload × Option ℚ × Option ℚ)) :
    ∀ (m : SortedBucketMap) (ooo : ℕ), m.Inv →
      m.sortedKeys.length ≤ limitFor bs →
      (foldUpdates bs (m, ooo) upds).1.Inv ∧
      (foldUpdates bs (m, ooo) upds).1.sortedKeys.length ≤ limitFor bs := by
  induction upds with
  | nil => intro m ooo hm hlen; exact ⟨hm, hlen⟩
  | cons u rest ih =>
    intro m ooo hm hlen
    obtain ⟨p, lp, loi⟩ := u
    obtain ⟨h1, h2⟩ := updateBucketMap_bounded hm hlen ooo p lp loi
    show (foldUpdates bs (updateBucketMap m ooo p lp loi bs) rest).1.Inv ∧
      (foldUpdates bs (updateBucketMap m ooo p lp loi bs) rest).1.sortedKeys.length ≤
        limitFor bs
    rw [show updateBucketMap m ooo p lp loi bs =
      ((updateBucketMap m ooo p lp loi bs).1,
       (updateBucketMap m ooo p lp loi bs).2) from rfl]
    exact ih _ _ h1 h2

theorem rangeMap_inv (n : ℕ) : (rangeMap n).Inv := by
  constructor
  · show ((List.range n).map (fun i : ℕ => (i : ℚ))).Pairwise (· < ·)
    rw [List.pairwise_map]
    refine List.pairwise_iff_getElem.mpr ?_
    intro i j hi hj hij
    simp only [List.getElem_range]
    exact_mod_cast hij
  · show ((List.range n).map (fun i : ℕ => (i : ℚ))).Perm
      ((rangeMap n).pairs.map Prod.fst)
    have hfst : (rangeMap n).pairs.map Prod.fst =
        (List.range n).map (fun i : ℕ => (i : ℚ)) := by
      show ((List.range n).map
        (fun i : ℕ =>
          ((i : ℚ), mkBucket ⟨0, none, none, none, none, none, none⟩ none none))).map
          Prod.fst = _
      rw [List.map_map]
      rfl
    rw [hfst]

theorem rangeMap71_len : (rangeMap 71).sortedKeys.length = limitFor 60000 + 1 := by
  show ((List.range 71).map (fun i : ℕ => (i : ℚ))).length =
    (if (60000 : ℚ) = 15000 then MAX_15S_BUCKETS else MAX_MINUTE_BUCKETS) + 1
  rw [List.length_map, List.length_range, if_neg (by norm_num)]
  rfl

/-- C9: starting from an empty per-symbol map, any sequence of bucket
updates leaves at most `limitFor bucketSize` buckets — 300 at the 15 s
resolution, 70 at the 60 s resolution; and whenever an insertion makes the
map one over the limit, `enforceLimit` evicts exactly the oldest bucket
(the drop of the first, smallest, sorted key). -/
theorem bucket_retention_bound (bs : ℚ)
    (upds : List (Payload × Option ℚ × Option ℚ))
    (m : SortedBucketMap) (hm : m.Inv)
    (hlen : m.sortedKeys.length = limitFor bs + 1) :
    (foldUpdates bs (SortedBucketMap.empty, 0) upds).1.size ≤ limitFor bs ∧
    (enforceLimit m bs).sortedKeys = m.sortedKeys.drop 1 := by
  constructor
  · obtain ⟨hinv, hle⟩ := foldUpdates_bounded bs upds SortedBucketMap.empty 0
      SortedBucketMap.inv_empty (Nat.zero_le _)
    rw [← SortedBucketMap.inv_size_eq hinv]
    exact hle
  · exact (enforceLimit_succ hm hlen).1

theorem bucket_retention_bound_witness :
    (rangeMap 71).Inv ∧
    (rangeMap 71).sortedKeys.length = limitFor 60000 + 1 ∧
    ((foldUpdates 60000 (SortedBucketMap.empty, 0) []).1.size ≤ limitFor 60000 ∧
      (enforceLimit (rangeMap 71) 60000).sortedKeys =
        (rangeMap 71).sortedKeys.drop 1) :=
  ⟨rangeMap_inv 71, rangeMap71_len,
    bucket_retention_bound 60000 [] (rangeMap 71) (rangeMap_inv 71) rangeMap71_len⟩







theorem mkBucket_consistent (p : Payload) (lp loi : Option ℚ) :
    bucketOIConsistent (mkBucket p lp loi) := by
  obtain ⟨ts, pr, oi, w, x, y, z⟩ := p
  cases oi <;> cases loi <;>
    simp [mkBucket, bucketOIConsistent, quadOI, obox]

theorem applyPoint_oiOpen (b : Bucket) (p : Payload) :
    (applyPoint b p).1.oiOpen =
      oiEdgeStep (p.timestamp < b.firstTs) p.openInterest b.oiOpen := by
  obtain ⟨oo, oc, oh, ol, vb, vs, tv, vbq, vsq, tqv, po, pc, cnt, fts, lts⟩ := b
  obtain ⟨ts, pr, oi, w, x, y, z⟩ := p
  cases oi <;> cases pr <;> simp [applyPoint, oiEdgeStep] <;> split_ifs <;> rfl

theorem applyPoint_oiClose (b : Bucket) (p : Payload) :
    (applyPoint b p).1.oiClose =
      oiEdgeStep (b.lastTs ≤ p.timestamp) p.openInterest b.oiClose := by
  obtain ⟨oo, oc, oh, ol, vb, vs, tv, vbq, vsq, tqv, po, pc, cnt, fts, lts⟩ := b
  obtain ⟨ts, pr, oi, w, x, y, z⟩ := p
  cases oi <;> cases pr <;> simp [applyPoint, oiEdgeStep] <;> split_ifs <;> rfl

theorem applyPoint_oiHigh (b : Bucket) (p : Payload) :
    (applyPoint b p).1.oiHigh = oiHighStep p.openInterest b.oiHigh := by
  obtain ⟨oo, oc, oh, ol, vb, vs, tv, vbq, vsq, tqv, po, pc, cnt, fts, lts⟩ := b
  obtain ⟨ts, pr, oi, w, x, y, z⟩ := p
  cases oi <;> cases pr <;> simp [applyPoint, oiHighStep] <;> split_ifs <;> rfl

theorem applyPoint_oiLow (b : Bucket) (p : Payload) :
    (applyPoint b p).1.oiLow = oiLowStep p.openInterest b.oiLow := by
  obtain ⟨oo, oc, oh, ol, vb, vs, tv, vbq, vsq, tqv, po, pc, cnt, fts, lts⟩ := b
  obtain ⟨ts, pr, oi, w, x, y, z⟩ := p
  cases oi <;> cases pr <;> simp [applyPoint, oiLowStep] <;> split_ifs <;> rfl

theorem quadOI_step (oo oc oh ol oi : Option ℚ) (r s : Prop)
    [Decidable r] [Decidable s] (h : quadOI oo oc oh ol) :
    quadOI (oiEdgeStep r oi oo) (oiEdgeStep s oi oc)
      (oiHighStep oi oh) (oiLowStep oi ol) := by
  cases oi <;> cases oh <;> cases ol <;> cases oo <;> cases oc <;>
    simp_all [quadOI, obox, oiEdgeStep, oiHighStep, oiLowStep] <;>
    (try split_ifs) <;>
    simp_all [quadOI, obox] <;> (repeat constructor) <;> linarith

theorem applyPoint_consistent {b : Bucket} (p : Payload)
    (hb : bucketOIConsistent b) : bucketOIConsistent (applyPoint b p).1 := by
  rw [bucketOIConsistent, applyPoint_oiOpen, applyPoint_oiClose,
    applyPoint_oiHigh, applyPoint_oiLow]
  exact quadOI_step _ _ _ _ p.openInterest (p.timestamp < b.firstTs)
    (b.lastTs ≤ p.timestamp) hb

theorem applyPoint_oi_some {b : Bucket} (p : Payload)
    (hoi : p.openInterest.isSome = true) :
    (applyPoint b p).1.oiLow.isSome = true ∧
    (applyPoint b p).1.oiHigh.isSome = true := by
  obtain ⟨v, hv⟩ := Option.isSome_iff_exists.mp hoi
  rw [applyPoint_oiLow, applyPoint_oiHigh, hv]
  cases b.oiLow <;> cases b.oiHigh <;>
    simp [oiLowStep, oiHighStep, apply_ite Option.isSome]

theorem set_pairs (m : SortedBucketMap) (key : ℚ) (v : Bucket) :
    (m.set key v).pairs = setA m.pairs key v := by
  by_cases h : m.hasKey key <;> simp [SortedBucketMap.set, h]

theorem delete_pairs_sublist (m : SortedBucketMap) (key : ℚ) :
    (m.delete key).pairs.Sublist m.pairs := by
  by_cases h : m.hasKey key
  · simp only [SortedBucketMap.delete, h, if_true]
    split
    · exact eraseA_sublist _ _
    · exact eraseA_sublist _ _
  · simp [SortedBucketMap.delete, h]

theorem mapOIConsistent_set {m : SortedBucketMap} (hmc : mapOIConsistent m)
    (key : ℚ) {b : Bucket} (hb : bucketOIConsistent b) :
    mapOIConsistent (m.set key b) := by
  intro q hq
  rw [set_pairs] at hq
  rcases mem_setA hq with h | h
  · rw [h]
    exact hb
  · exact hmc q h

theorem mapOIConsistent_delete {m : SortedBucketMap} (hmc : mapOIConsistent m)
    (key : ℚ) : mapOIConsistent (m.delete key) := by
  intro q hq
  exact hmc q ((delete_pairs_sublist m key).subset hq)

theorem mapOIConsistent_elGo (steps : ℕ) :
    ∀ (m : SortedBucketMap) (i : ℕ), mapOIConsistent m →
      mapOIConsistent (elGo m i steps) := by
  induction steps with
  | zero => intro m i hmc; exact hmc
  | succ n ih =>
    intro m i hmc
    rw [elGo]
    cases hki : m.sortedKeys[i]? with
    | none =>
      simp only [hki]
      exact ih m (i + 1) hmc
    | some k =>
      simp only [hki]
      exact ih _ (i + 1) (mapOIConsistent_delete hmc k)

theorem mapOIConsistent_enforceLimit {m : SortedBucketMap}
    (hmc : mapOIConsistent m) (bs : ℚ) : mapOIConsistent (enforceLimit m bs) := by
  by_cases h : m.sortedKeys.length ≤ limitFor bs
  · rw [enforceLimit_of_le h]
    exact hmc
  · rw [enforceLimit_eq, if_neg h]
    exact mapOIConsistent_elGo _ m 0 hmc

theorem mapOIConsistent_update {m : SortedBucketMap} (hmc : mapOIConsistent m)
    (ooo : ℕ) (p : Payload) (lp loi : Option ℚ) (bs : ℚ) :
    mapOIConsistent (updateBucketMap m ooo p lp loi bs).1 := by
  have hmain : ∀ (key : ℚ) (b : Bucket), bucketOIConsistent b →
      mapOIConsistent (enforceLimit (m.set key b) bs) := by
    intro key b hb
    exact mapOIConsistent_enforceLimit (mapOIConsistent_set hmc key hb) bs
  have hb0 : bucketOIConsistent
      (match m.get ((⌊ratDiv p.timestamp bs⌋ : ℚ) * bs) with
       | some b => b
       | none => mkBucket p lp loi) := by
    cases hg : m.get ((⌊ratDiv p.timestamp bs⌋ : ℚ) * bs) with
    | some b => exact hmc _ (lookupA_mem hg)
    | none => exact mkBucket_consistent p lp loi
  exact hmain _ _ (applyPoint_consistent p hb0)

theorem mapOIConsistent_fold (bs : ℚ)
    (upds : List (Payload × Option ℚ × Option ℚ)) :
    ∀ (m : SortedBucketMap) (ooo : ℕ), mapOIConsistent m →
      mapOIConsistent (foldUpdates bs (m, ooo) upds).1 := by
  induction upds with
  | nil => intro m ooo hmc; exact hmc
  | cons u rest ih =>
    intro m ooo hmc
    obtain ⟨p, lp, loi⟩ := u
    show mapOIConsistent (foldUpdates bs (updateBucketMap m ooo p lp loi bs) rest).1
    rw [show updateBucketMap m ooo p lp loi bs =
      ((updateBucketMap m ooo p lp loi bs).1,
       (updateBucketMap m ooo p lp loi bs).2) from rfl]
    exact ih _ _ (mapOIConsistent_update hmc ooo p lp loi bs)

set_option maxRecDepth 4000 in
/-- C7 counterexample: a bucket is created by a price-only point and then
receives an in-order OI-carrying point (bucket size 2 ms keeps the kernel
evaluation small; the OI logic is independent of the bucket size).  The OI
update is folded in (`oiClose = oiHigh = oiLow = 100`), yet `oiOpen` stays
`NaN` (`none`), so `oiLow ≤ oiOpen ≤ oiHigh` fails for this bucket — the
claimed invariant does not cover `oiOpen`. -/
theorem bucket_ohlc_claim_false :
    SortedBucketMap.get
      (foldUpdates 2 (SortedBucketMap.empty, 0)
        [(⟨10, some 5, none, none, none, none, none⟩, none, none),
         (⟨11, none, some 100, none, none, none, none⟩, some 5, some 100)]).1 10 =
      some ⟨none, some 100, some 100, some 100, 0, 0, 0, 0, 0, 0,
        some 5, some 5, 2, 10, 11⟩ := by
  with_unfolding_all decide

/-- C7 (amended): every bucket reachable by folding updates from an empty
map satisfies the OI consistency that actually holds — `oiHigh`/`oiLow` are
both unset or both set with `oiLow ≤ oiHigh`, and any *set* `oiOpen` or
`oiClose` lies between them (`oiOpen` may remain `NaN` even after an OI
update, see the counterexample); moreover an update carrying OI always
leaves `oiLow` and `oiHigh` set. -/
theorem bucket_ohlc_invariant (bs : ℚ)
    (upds : List (Payload × Option ℚ × Option ℚ))
    (b : Bucket) (p : Payload) (hb : bucketOIConsistent b)
    (hoi : p.openInterest.isSome = true) :
    mapOIConsistent (foldUpdates bs (SortedBucketMap.empty, 0) upds).1 ∧
    bucketOIConsistent (applyPoint b p).1 ∧
    (applyPoint b p).1.oiLow.isSome = true ∧
    (applyPoint b p).1.oiHigh.isSome = true := by
  obtain ⟨h1, h2⟩ := applyPoint_oi_some (b := b) p hoi
  refine ⟨mapOIConsistent_fold bs upds SortedBucketMap.empty 0 ?_,
    applyPoint_consistent p hb, h1, h2⟩
  intro q hq
  exact absurd hq (List.not_mem_nil q)

theorem bucket_ohlc_invariant_witness :
    bucketOIConsistent
      ⟨none, none, none, none, 0, 0, 0, 0, 0, 0, none, none, 0, 0, 0⟩ ∧
    (Payload.openInterest ⟨5, none, some 7, none, none, none, none⟩).isSome
      = true ∧
    (mapOIConsistent (foldUpdates 60000 (SortedBucketMap.empty, 0) []).1 ∧
      bucketOIConsistent
        (applyPoint ⟨none, none, none, none, 0, 0, 0, 0, 0, 0, none, none, 0, 0, 0⟩
          ⟨5, none, some 7, none, none, none, none⟩).1 ∧
      (applyPoint ⟨none, none, none, none, 0, 0, 0, 0, 0, 0, none, none, 0, 0, 0⟩
          ⟨5, none, some 7, none, none, none, none⟩).1.oiLow.isSome = true ∧
      (applyPoint ⟨none, none, none, none, 0, 0, 0, 0, 0, 0, none, none, 0, 0, 0⟩
          ⟨5, none, some 7, none, none, none, none⟩).1.oiHigh.isSome = true) :=
  ⟨⟨rfl, rfl⟩, rfl,
    bucket_ohlc_invariant 60000 []
      ⟨none, none, none, none, 0, 0, 0, 0, 0, 0, none, none, 0, 0, 0⟩
      ⟨5, none, some 7, none, none, none, none⟩ ⟨rfl, rfl⟩ rfl⟩




set_option maxHeartbeats 1000000 in
/-- C1: when the window has OI-bearing movement (`hasOI`), a finite
`currentOI`, and positive extrema, `calculateWindow` returns as
`oiChangePercent` (rounded to six decimals, as the method does) whichever of
`changeFromMin = (c − minOI)/minOI·100` and `changeFromMax =
(c − maxOI)/maxOI·100` has the larger absolute value, as `oiStart` the
extremum used, and as `oiEnd` the current OI. -/
theorem calculateWindow_max_deviation (m : SortedBucketMap)
    (minutes bucketSize now : ℚ) (cp : Option ℚ) (c : ℚ) (mv : Movement)
    (hmov : findOIAndVolumeWithinWindow m (now - minutes * 60000) now bucketSize
      (some c) cp = some mv)
    (hoi : mv.hasOI = true) (hmin : 0 < mv.minOI) (hmax : 0 < mv.maxOI) :
    (calculateWindow m minutes bucketSize cp (some c) now).oiChangePercent =
      round6 (if |ratDiv (c - mv.maxOI) mv.maxOI * 100| <
            |ratDiv (c - mv.minOI) mv.minOI * 100|
          then ratDiv (c - mv.minOI) mv.minOI * 100
          else ratDiv (c - mv.maxOI) mv.maxOI * 100) ∧
    (calculateWindow m minutes bucketSize cp (some c) now).oiStart =
      (if |ratDiv (c - mv.maxOI) mv.maxOI * 100| <
            |ratDiv (c - mv.minOI) mv.minOI * 100|
          then mv.minOI else mv.maxOI) ∧
    (calculateWindow m minutes bucketSize cp (some c) now).oiEnd = c := by
  have e1 : (calculateWindow m minutes bucketSize cp (some c) now).oiChangePercent =
      round6 (oiTripleFor (findOIAndVolumeWithinWindow m (now - minutes * 60000)
        now bucketSize (some c) cp) (some c)
        (fallbackTripleFor m (now - minutes * 60000) now bucketSize
          (minutes * 60000))).1 := rfl
  have e2 : (calculateWindow m minutes bucketSize cp (some c) now).oiStart =
      (oiTripleFor (findOIAndVolumeWithinWindow m (now - minutes * 60000)
        now bucketSize (some c) cp) (some c)
        (fallbackTripleFor m (now - minutes * 60000) now bucketSize
          (minutes * 60000))).2.1 := rfl
  have e3 : (calculateWindow m minutes bucketSize cp (some c) now).oiEnd =
      (oiTripleFor (findOIAndVolumeWithinWindow m (now - minutes * 60000)
        now bucketSize (some c) cp) (some c)
        (fallbackTripleFor m (now - minutes * 60000) now bucketSize
          (minutes * 60000))).2.2 := rfl
  rw [e1, e2, e3, hmov]
  simp only [oiTripleFor, hoi, if_pos hmin, if_pos hmax]
  by_cases habs : |ratDiv (c - mv.maxOI) mv.maxOI * 100| <
      |ratDiv (c - mv.minOI) mv.minOI * 100|
  · simp [habs]
  · simp [habs]

set_option maxRecDepth 4000 in
theorem calculateWindow_max_deviation_witness :
    findOIAndVolumeWithinWindow
      ⟨[(0, ⟨some 100, some 110, some 110, some 100, 0, 0, 0, 0, 0, 0,
          some 5, some 5, 1, 0, 10000⟩)], [0]⟩
      (10000 - 1 * 60000) 10000 15000 (some 105) none =
      some ⟨true, 10, 100, 110, 0, 0, 0, 0, some 5, 100, 110, 5, 5⟩ ∧
    (⟨true, 10, 100, 110, 0, 0, 0, 0, some 5, 100, 110, 5, 5⟩ : Movement).hasOI
      = true ∧
    (0 : ℚ) < (⟨true, 10, 100, 110, 0, 0, 0, 0, some 5, 100, 110, 5, 5⟩
      : Movement).minOI ∧
    (0 : ℚ) < (⟨true, 10, 100, 110, 0, 0, 0, 0, some 5, 100, 110, 5, 5⟩
      : Movement).maxOI ∧
    ((calculateWindow
        ⟨[(0, ⟨some 100, some 110, some 110, some 100, 0, 0, 0, 0, 0, 0,
            some 5, some 5, 1, 0, 10000⟩)], [0]⟩
        1 15000 none (some 105) 10000).oiChangePercent =
      round6 (if |ratDiv ((105 : ℚ) - 110) 110 * 100| <
            |ratDiv ((105 : ℚ) - 100) 100 * 100|
          then ratDiv ((105 : ℚ) - 100) 100 * 100
          else ratDiv ((105 : ℚ) - 110) 110 * 100) ∧
    (calculateWindow
        ⟨[(0, ⟨some 100, some 110, some 110, some 100, 0, 0, 0, 0, 0, 0,
            some 5, some 5, 1, 0, 10000⟩)], [0]⟩
        1 15000 none (some 105) 10000).oiStart =
      (if |ratDiv ((105 : ℚ) - 110) 110 * 100| <
            |ratDiv ((105 : ℚ) - 100) 100 * 100|
          then (100 : ℚ) else 110) ∧
    (calculateWindow
        ⟨[(0, ⟨some 100, some 110, some 110, some 100, 0, 0, 0, 0, 0, 0,
            some 5, some 5, 1, 0, 10000⟩)], [0]⟩
        1 15000 none (some 105) 10000).oiEnd = 105) :=
  ⟨by with_unfolding_all decide, rfl, by decide, by decide,
    calculateWindow_max_deviation
      ⟨[(0, ⟨some 100, some 110, some 110, some 100, 0, 0, 0, 0, 0, 0,
          some 5, some 5, 1, 0, 10000⟩)], [0]⟩
      1 15000 10000 none 105
      ⟨true, 10, 100, 110, 0, 0, 0, 0, some 5, 100, 110, 5, 5⟩
      (by with_unfolding_all decide) rfl (by decide) (by decide)⟩




set_option maxRecDepth 4000 in
/-- C2 counterexample: a symbol whose (15 s) map holds one price-only
bucket, past warmup.  Both boundary interpolations fail — `getOIAtBoundary`
is `null` at both window boundaries and `fallbackInterpolationForOI`
returns `null` — yet `getMetricChanges` still returns a (zeroed) metrics
record, not `null`: `calculateWindow` has no `null` return. -/
theorem getMetricChanges_claim_false :
    getOIAtBoundary
      ⟨[(0, ⟨none, none, none, none, 0, 0, 0, 0, 0, 0,
          some 5, some 5, 1, 0, 10⟩)], [0]⟩ 0 = none ∧
    getOIAtBoundary
      ⟨[(0, ⟨none, none, none, none, 0, 0, 0, 0, 0, 0,
          some 5, some 5, 1, 0, 10⟩)], [0]⟩ 60000 = none ∧
    fallbackInterpolationForOI
      ⟨[(0, ⟨none, none, none, none, 0, 0, 0, 0, 0, 0,
          some 5, some 5, 1, 0, 10⟩)], [0]⟩ 0 60000 15000 60000 = none ∧
    (getMetricChanges
      ⟨[("BTCUSDT",
          ⟨[(0, ⟨none, none, none, none, 0, 0, 0, 0, 0, 0,
              some 5, some 5, 1, 0, 10⟩)], [0]⟩)], [], [], [],
        [("BTCUSDT", 0)]⟩
      60000 "BTCUSDT" 1).isSome = true := by
  with_unfolding_all decide

/-- C2 (amended): `getMetricChanges` returns `null` exactly when the symbol
is empty, the interval is non-positive, the selected resolution store has no
map for the symbol, the map is empty, or the symbol is within warmup
(`now − firstSeen < intervalMinutes · 60000`); boundary-interpolation
failure never produces `null` (see the counterexample). -/
theorem getMetricChanges_null_iff (st : AggState) (now : ℚ) (symbol : String)
    (mins : ℚ) :
    getMetricChanges st now symbol mins = none ↔
      symbol = "" ∨ mins ≤ 0 ∨
      lookupS (if mins ≤ 2 then st.buckets15s else st.buckets1m) symbol = none ∨
      (∃ bm, lookupS (if mins ≤ 2 then st.buckets15s else st.buckets1m) symbol
          = some bm ∧
        (bm.size = 0 ∨ now - (lookupS st.firstSeen symbol).getD now
          < mins * 60000)) := by
  by_cases hg : symbol = "" ∨ mins ≤ 0
  · have hrhs : symbol = "" ∨ mins ≤ 0 ∨
        lookupS (if mins ≤ 2 then st.buckets15s else st.buckets1m) symbol = none ∨
        (∃ bm, lookupS (if mins ≤ 2 then st.buckets15s else st.buckets1m) symbol
            = some bm ∧
          (bm.size = 0 ∨ now - (lookupS st.firstSeen symbol).getD now
            < mins * 60000)) :=
      hg.elim Or.inl (fun h => Or.inr (Or.inl h))
    have hnone : getMetricChanges st now symbol mins = none := by
      simp only [getMetricChanges]
      rw [if_pos hg]
    exact iff_of_true hnone hrhs
  · rw [not_or] at hg
    obtain ⟨h1, h2⟩ := hg
    simp only [getMetricChanges]
    rw [if_neg (by simp [h1, h2])]
    cases hl : lookupS (if mins ≤ 2 then st.buckets15s else st.buckets1m) symbol with
    | none => simp [hl, h1, h2]
    | some bm =>
      by_cases hs : bm.size = 0
      · simp [hl, hs, h1, h2]
      · by_cases hw : now - (lookupS st.firstSeen symbol).getD now < mins * 60000
        · simp [hl, hs, hw, h1, h2]
        · simp [hl, hs, hw, h1, h2]


end TempOI
